import Mathlib

/-!
Verification of `gitops-replacer` (src/gitops_replacer/__main__.py).

Strings are modelled as `List Char`.  File content is split on `'\n'`
(Python `content.split('\n')`) and rejoined with `'\n'.join(...)`;
both are embedded below as `splitNl` / `joinNl`.

The two regular expressions of the source are embedded as deterministic
character-list parsers:

* `MARKER_PATTERN = r'#\s*gitops-replacer:\s*(\S+)'`, used via `re.search`
  (leftmost match); embedded as `markerSearch`.  Greedy `\s*` / `\S+` need
  no backtracking here because the whitespace classes are disjoint from the
  characters that follow them, so maximal munch is exact.

* the value-line pattern of `replace_marked_value`,
  `r'^(\s*(?:-\s+)?[\w-]+:\s*)(["\']?)([^"\'#\n]*)(["\']?)(\s*#.*)?$'`,
  used via `re.match`; embedded as `valueMatch`.  The pattern is
  deterministic on the '\n'-free inputs it is applied to (lines produced by
  `split('\n')`): every greedy piece is followed by a disjoint character
  class, the optional `-\s+` cannot be rescued by the no-dash alternative
  when a dash is followed by whitespace, and shrinking group 3 or dropping
  an optional quote never turns a failing continuation into a success.
  Character classes `\w`/`\s` are modelled at their ASCII core.
-/

/-- ASCII whitespace, the core of Python's `\s`. -/
def isWsC (c : Char) : Bool :=
  c = ' ' ∨ c = '\t' ∨ c = '\n' ∨ c = '\r' ∨ c = '\x0b' ∨ c = '\x0c'

/-- ASCII word character, the core of Python's `\w`. -/
def isWordC (c : Char) : Bool :=
  c.isAlpha ∨ c.isDigit ∨ c = '_'

/-- Character of the key class `[\w-]`. -/
def isKeyC (c : Char) : Bool :=
  isWordC c ∨ c = '-'

/-- A single or double quote, the class `["\']`. -/
def isQuoteC (c : Char) : Bool :=
  c = '"' ∨ c = '\''

/-- Character of the value class `[^"\'#\n]`. -/
def isValC (c : Char) : Bool :=
  ¬ (c = '"' ∨ c = '\'' ∨ c = '#' ∨ c = '\n')

/-- Python `str.rstrip()` (ASCII whitespace). -/
def rstrip (l : List Char) : List Char :=
  (l.reverse.dropWhile isWsC).reverse

/-- Match a literal character sequence at the head of the input and
return the remainder. -/
def stripLit : List Char → List Char → Option (List Char)
  | [], r => some r
  | _ :: _, [] => none
  | p :: ps, c :: cs => if c = p then stripLit ps cs else none

/-- The part of `MARKER_PATTERN` after the `#`:
`\s*` `gitops-replacer:` `\s*` `(\S+)`; returns group 1. -/
def markerAfterHash (r : List Char) : Option (List Char) :=
  match stripLit ("gitops-replacer:".toList) (r.dropWhile isWsC) with
  | none => none
  | some r2 =>
    let name := (r2.dropWhile isWsC).takeWhile (fun c => ¬ isWsC c)
    if name = [] then none else some name

/-- `re.search(MARKER_PATTERN, line)`: group 1 of the leftmost match.
A match can only start at a `#`. -/
def markerSearch : List Char → Option (List Char)
  | [] => none
  | c :: cs =>
    if c = '#' then
      match markerAfterHash cs with
      | some n => some n
      | none => markerSearch cs
    else markerSearch cs

/-- `match = re.search(MARKER_PATTERN, line)` and
`match.group(1) == dep_name`. -/
def isMarkerLine (dep_name : List Char) (l : List Char) : Bool :=
  decide (markerSearch l = some dep_name)

/-- `[\w-]+:` — a nonempty key and its colon; returns (key ++ ":", rest). -/
def parseKeyColon (r : List Char) : Option (List Char × List Char) :=
  match r.takeWhile isKeyC, r.dropWhile isKeyC with
  | [], _ => none
  | key, c :: r2 => if c = ':' then some (key ++ [':'], r2) else none
  | _, [] => none

/-- `true` when the list starts with a whitespace character. -/
def headWs : List Char → Bool
  | c :: _ => isWsC c
  | [] => false

/-- Group 1 of the value pattern, `\s*(?:-\s+)?[\w-]+:\s*`; returns
(group 1, rest).  When a `-` is followed by whitespace the dash branch is
forced: the no-dash alternative would read the key as `-` alone and then
fail on the whitespace where `:` is required. -/
def parseLead (l : List Char) : Option (List Char × List Char) :=
  let w1 := l.takeWhile isWsC
  let r1 := l.dropWhile isWsC
  match r1 with
  | [] => none
  | a :: r2 =>
    if a = '-' && headWs r2 then
      match parseKeyColon (r2.dropWhile isWsC) with
      | none => none
      | some (kc, r4) =>
        some (w1 ++ '-' :: r2.takeWhile isWsC ++ kc ++ r4.takeWhile isWsC,
              r4.dropWhile isWsC)
    else
      match parseKeyColon r1 with
      | none => none
      | some (kc, r4) =>
        some (w1 ++ kc ++ r4.takeWhile isWsC, r4.dropWhile isWsC)

/-- `["\']?` — an optional single quote character. -/
def parseQuote : List Char → List Char × List Char
  | [] => ([], [])
  | c :: r => if isQuoteC c then ([c], r) else ([], c :: r)

/-- `(\s*#.*)?$` on the remainder: accept the empty remainder (group 5
absent) or a remainder that is whitespace followed by `#` (group 5 = the
whole remainder, `.*` running to the end of the '\n'-free line). -/
def parseTailComment (r : List Char) : Option (List Char) :=
  match r with
  | [] => some []
  | _ :: _ =>
    match r.dropWhile isWsC with
    | '#' :: _ => some r
    | _ => none

/-- Groups 3–5 of the value pattern, run after the optional opening quote:
`([^"\'#\n]*)(["\']?)(\s*#.*)?$`. -/
def parseValueTail (r5 : List Char) :
    Option (List Char × List Char × List Char) :=
  let v := r5.takeWhile isValC
  let r6 := r5.dropWhile isValC
  let (qc, r7) := parseQuote r6
  match parseTailComment r7 with
  | none => none
  | some suf => some (v, qc, suf)

/-- `re.match(value_pattern, line)`: the five groups
(g1 = indentation/dash/key/colon, quote-open, value, quote-close,
trailing comment), or `none` when the line does not have that shape. -/
def valueMatch (l : List Char) :
    Option (List Char × List Char × List Char × List Char × List Char) :=
  match parseLead l with
  | none => none
  | some (g1, r4) =>
    let (qo, r5) := parseQuote r4
    match parseValueTail r5 with
    | none => none
    | some (v, qc, suf) => some (g1, qo, v, qc, suf)

/-- `content.split('\n')`. -/
def splitNl : List Char → List (List Char)
  | [] => [[]]
  | c :: cs =>
    if c = '\n' then [] :: splitNl cs
    else
      match splitNl cs with
      | [] => [[c]]
      | l :: ls => (c :: l) :: ls

/-- `'\n'.join(lines)`. -/
def joinNl : List (List Char) → List Char
  | [] => []
  | [l] => l
  | l :: ls => l ++ '\n' :: joinNl ls

/-- The mutable state of the loop in `replace_marked_value`:
`result`, `replace_next`, `old_value`, `changed`. -/
structure PatchState where
  result : List (List Char)
  replace_next : Bool
  old_value : Option (List Char)
  changed : Bool
deriving Repr, DecidableEq

/-- One iteration of the `for line in lines` loop of
`replace_marked_value`. -/
def patchStep (dep_name new_value : List Char) (s : PatchState)
    (line : List Char) : PatchState :=
  if isMarkerLine dep_name line then
    ⟨s.result ++ [line], true, s.old_value, s.changed⟩
  else if s.replace_next then
    match valueMatch line with
    | some (g1, qo, v, qc, suf) =>
      let old := rstrip v
      if old ≠ new_value then
        ⟨s.result ++ [g1 ++ qo ++ new_value ++ qc ++ suf], false, some old, true⟩
      else
        ⟨s.result ++ [line], false, some old, s.changed⟩
    | none => ⟨s.result ++ [line], false, s.old_value, s.changed⟩
  else
    ⟨s.result ++ [line], false, s.old_value, s.changed⟩

/-- `replace_marked_value(content, dep_name, new_value)`:
returns `(new_content, old_value, changed)`. -/
def replace_marked_value (content dep_name new_value : List Char) :
    List Char × Option (List Char) × Bool :=
  let s := (splitNl content).foldl (patchStep dep_name new_value) ⟨[], false, none, false⟩
  (joinNl s.result, s.old_value, s.changed)

/-! ### Shape predicates for the pieces of a value-line decomposition -/

/-- Every character is whitespace. -/
def allWs (w : List Char) : Prop := ∀ c ∈ w, isWsC c = true

/-- Every character is in the key class `[\w-]`. -/
def allKey (k : List Char) : Prop := ∀ c ∈ k, isKeyC c = true

/-- Shape of the optional `-\s+` piece. -/
def dashOk (dp : List Char) : Prop :=
  dp = [] ∨ ∃ wd, dp = '-' :: wd ∧ wd ≠ [] ∧ allWs wd

/-- Shape of an optional quote group. -/
def quoteOk (q : List Char) : Prop :=
  q = [] ∨ ∃ c, q = [c] ∧ isQuoteC c = true

/-- Shape of the optional trailing-comment group `\s*#.*`. -/
def sufOk (s : List Char) : Prop :=
  s = [] ∨ ∃ w3 rest, s = w3 ++ '#' :: rest ∧ allWs w3

/-! ### A structural recursion equivalent to the loop of
`replace_marked_value`, used for proofs -/

/-- Python assignment semantics for `old_value`: a later capture
overwrites an earlier one. -/
def optOr : Option (List Char) → Option (List Char) → Option (List Char)
  | some x, _ => some x
  | none, b => b

/-- Output of processing a list of lines from a given `replace_next`
flag: the emitted lines, the final flag, the captured old value of the
processed region, and whether the region changed. -/
structure ProcOut where
  lines : List (List Char)
  flag : Bool
  old : Option (List Char)
  changed : Bool
deriving Repr, DecidableEq

def procRec (d V : List Char) : Bool → List (List Char) → ProcOut
  | f, [] => ⟨[], f, none, false⟩
  | f, l :: ls =>
    if isMarkerLine d l then
      let r := procRec d V true ls
      ⟨l :: r.lines, r.flag, r.old, r.changed⟩
    else if f then
      match valueMatch l with
      | some (g1, qo, v, qc, suf) =>
        let r := procRec d V false ls
        if rstrip v ≠ V then
          ⟨(g1 ++ qo ++ V ++ qc ++ suf) :: r.lines, r.flag,
            optOr r.old (some (rstrip v)), true⟩
        else
          ⟨l :: r.lines, r.flag, optOr r.old (some (rstrip v)), r.changed⟩
      | none =>
        let r := procRec d V false ls
        ⟨l :: r.lines, r.flag, r.old, r.changed⟩
    else
      let r := procRec d V false ls
      ⟨l :: r.lines, r.flag, r.old, r.changed⟩

/-- The line a position emits, as a function of the `replace_next` flag in
force there. -/
def lineOut (d V : List Char) (f : Bool) (l : List Char) : List Char :=
  if isMarkerLine d l then l
  else if f then
    match valueMatch l with
    | some (g1, qo, v, qc, suf) =>
      if rstrip v ≠ V then g1 ++ qo ++ V ++ qc ++ suf else l
    | none => l
  else l

/-- The condition on the new value under which the Patcher is idempotent:
no quote, `#` or newline character, and no leading or trailing whitespace. -/
def valueOk (V : List Char) : Bool :=
  V.all isValC && !(headWs V) && decide (rstrip V = V)

/-! ## The batch orchestrator (`main` of `__main__.py`)

We model the two loops of `main` after configuration loading: the
precheck loop (lines 200–230: GET per target, classify 401 / 404 /
other-non-200 as errors, cache successful responses, `sys.exit` if any
error) and the replace loop (gating on `when`/`except` in `--ci` mode,
cache reuse or re-fetch, patching, dry-run, PUT).  The GitHub API is an
oracle pair `get`/`put`; base64 transcoding is the external collaborator's
job, so `GetResp.content` holds the decoded text.  `rmatch p s` stands for
`re.match(p, s) is not None` (anchored at the start of `s`), taken as a
parameter since the gate logic does not depend on the pattern language. -/

structure Target where
  repository : String
  branch : String
  file : String
  depName : List Char
  whenPat : Option String
  exceptPat : Option String
deriving Repr, DecidableEq

structure GetResp where
  status : Nat
  content : List Char
  sha : String
deriving Repr, DecidableEq

structure RunEnv where
  get : Target → GetResp
  put : Target → List Char → String → Nat
  rmatch : String → String → Bool
  ci : Bool
  gitRef : Option String
  applyFlag : Bool
  value : List Char

/-- `cache_key = f"{repo_path}:{branch}:{file_path}"`. -/
def cacheKey (t : Target) : String :=
  t.repository ++ ":" ++ t.branch ++ ":" ++ t.file

/-- The `--ci` gate of the replace loop: skip when a `when` pattern is
present and the reference does not match it, otherwise skip when an
`except` pattern is present and the reference matches it.  An absent
reference is matched as `""` (`git_ref or ""`). -/
def gateSkip (rmatch : String → String → Bool) (t : Target)
    (gitRef : Option String) : Bool :=
  let ref := gitRef.getD ""
  if (match t.whenPat with
      | some p => !(rmatch p ref)
      | none => false) then
    true
  else
    match t.exceptPat with
    | some q => rmatch q ref
    | none => false

/-- Per-target outcome of one iteration of the replace loop. -/
inductive Outcome where
  | skipped
  | fetchError
  | noMarker
  | unchanged
  | dryRun
  | written
  | writeError
deriving Repr, DecidableEq

structure StepResult where
  outcome : Outcome
  wrote : Option (Target × List Char)
  refetched : Option String
deriving Repr, DecidableEq

/-- The tail of a replace-loop iteration, once content is in hand:
patch, classify no-marker / unchanged / dry-run, or PUT. -/
def applyWith (env : RunEnv) (t : Target) (r : GetResp)
    (refetched : Option String) : StepResult :=
  let res := replace_marked_value r.content t.depName env.value
  if res.2.1 = none then ⟨.noMarker, none, refetched⟩
  else if res.2.2 = false then ⟨.unchanged, none, refetched⟩
  else if env.applyFlag = false then ⟨.dryRun, none, refetched⟩
  else
    let status := env.put t res.1 r.sha
    if status = 200 ∨ status = 201 then ⟨.written, some (t, res.1), refetched⟩
    else ⟨.writeError, some (t, res.1), refetched⟩

/-- One iteration of the replace loop for one target. -/
def applyTarget (env : RunEnv) (cache : String → Option GetResp)
    (t : Target) : StepResult :=
  if env.ci && gateSkip env.rmatch t env.gitRef then ⟨.skipped, none, none⟩
  else
    match cache (cacheKey t) with
    | some r => applyWith env t r none
    | none =>
      let r := env.get t
      if r.status ≠ 200 then ⟨.fetchError, none, some (cacheKey t)⟩
      else applyWith env t r (some (cacheKey t))

structure PrecheckState where
  exitCode : Nat
  cache : String → Option GetResp
  fetched : List String

/-- One iteration of the precheck loop: issue the GET, classify the
status, cache a 200 response under the target's cache key. -/
def precheckStep (get : Target → GetResp) (s : PrecheckState)
    (t : Target) : PrecheckState :=
  let r := get t
  let fetched := s.fetched ++ [cacheKey t]
  if r.status = 401 then ⟨1, s.cache, fetched⟩
  else if r.status = 404 then ⟨1, s.cache, fetched⟩
  else if r.status ≠ 200 then ⟨1, s.cache, fetched⟩
  else ⟨s.exitCode, fun k => if k = cacheKey t then some r else s.cache k,
        fetched⟩

structure ApplyState where
  exitCode : Nat
  outcomes : List Outcome
  writes : List (Target × List Char)
  fetched : List String
deriving Repr

/-- One iteration of the replace loop threaded through the loop state:
a fetch error or a PUT status outside {200, 201} sets `exit_code = 1`. -/
def applyStep (env : RunEnv) (cache : String → Option GetResp)
    (s : ApplyState) (t : Target) : ApplyState :=
  let r := applyTarget env cache t
  ⟨if r.outcome = .fetchError ∨ r.outcome = .writeError then 1 else s.exitCode,
   s.outcomes ++ [r.outcome],
   s.writes ++ r.wrote.toList,
   s.fetched ++ r.refetched.toList⟩

structure RunResult where
  exitCode : Nat
  precheckFetched : List String
  applyEntered : Bool
  outcomes : List Outcome
  applyFetched : List String
  writes : List (Target × List Char)
deriving Repr

/-- The body of the source function `main` after configuration loading
(named `mainRun` here because Lean reserves `main`): the precheck loop
over all targets, `sys.exit(exit_code)` if any validation error was
recorded, then the replace loop over all targets, and the final
`sys.exit(exit_code)`. -/
def mainRun (env : RunEnv) (targets : List Target) : RunResult :=
  let p := targets.foldl (precheckStep env.get) ⟨0, fun _ => none, []⟩
  if p.exitCode ≠ 0 then
    ⟨p.exitCode, p.fetched, false, [], [], []⟩
  else
    let a := targets.foldl (applyStep env p.cache) ⟨0, [], [], []⟩
    ⟨a.exitCode, p.fetched, true, a.outcomes, a.fetched, a.writes⟩

/-! ### Basic facts about the character classes -/

theorem isWsC_elim {c : Char} (h : isWsC c = true) :
    c = ' ' ∨ c = '\t' ∨ c = '\n' ∨ c = '\r' ∨ c = '\x0b' ∨ c = '\x0c' := by
  simpa [isWsC] using h

theorem isQuoteC_elim {c : Char} (h : isQuoteC c = true) :
    c = '"' ∨ c = '\'' := by
  simpa [isQuoteC] using h

theorem keyC_ne_hash {c : Char} (h : isKeyC c = true) : c ≠ '#' := by
  rintro rfl; exact absurd h (by decide)

theorem keyC_not_ws {c : Char} (h : isKeyC c = true) : isWsC c = false := by
  cases hw : isWsC c with
  | false => rfl
  | true =>
    rcases isWsC_elim hw with rfl | rfl | rfl | rfl | rfl | rfl <;>
      exact absurd h (by decide)

theorem wsC_ne_hash {c : Char} (h : isWsC c = true) : c ≠ '#' := by
  rintro rfl; exact absurd h (by decide)

theorem quoteC_ne_hash {c : Char} (h : isQuoteC c = true) : c ≠ '#' := by
  rcases isQuoteC_elim h with rfl | rfl <;> decide

theorem quoteC_not_ws {c : Char} (h : isQuoteC c = true) : isWsC c = false := by
  rcases isQuoteC_elim h with rfl | rfl <;> decide

theorem quoteC_not_val {c : Char} (h : isQuoteC c = true) : isValC c = false := by
  rcases isQuoteC_elim h with rfl | rfl <;> decide

theorem valC_ne_hash {c : Char} (h : isValC c = true) : c ≠ '#' := by
  simp [isValC] at h; rintro rfl; simp at h

theorem valC_ne_nl {c : Char} (h : isValC c = true) : c ≠ '\n' := by
  simp [isValC] at h; rintro rfl; simp at h

theorem valC_not_quote {c : Char} (h : isValC c = true) : isQuoteC c = false := by
  simp [isValC] at h
  cases hq : isQuoteC c with
  | false => rfl
  | true => rcases isQuoteC_elim hq with rfl | rfl <;> simp at h

theorem wsC_valC {c : Char} (h : isWsC c = true) (hnl : c ≠ '\n') :
    isValC c = true := by
  rcases isWsC_elim h with rfl | rfl | rfl | rfl | rfl | rfl <;>
    first | decide | exact absurd rfl hnl

/-! ### takeWhile / dropWhile on appended lists -/

theorem takeWhile_all_append {p : Char → Bool} {a b : List Char}
    (h : ∀ x ∈ a, p x = true) :
    (a ++ b).takeWhile p = a ++ b.takeWhile p := by
  induction a with
  | nil => simp
  | cons c cs ih =>
    have hc : p c = true := h c (by simp)
    simp only [List.cons_append, List.takeWhile_cons_of_pos hc]
    rw [ih (fun x hx => h x (by simp [hx]))]

theorem dropWhile_all_append {p : Char → Bool} {a b : List Char}
    (h : ∀ x ∈ a, p x = true) :
    (a ++ b).dropWhile p = b.dropWhile p := by
  induction a with
  | nil => simp
  | cons c cs ih =>
    have hc : p c = true := h c (by simp)
    simp only [List.cons_append, List.dropWhile_cons_of_pos hc]
    exact ih (fun x hx => h x (by simp [hx]))

theorem mem_takeWhile_sat {p : Char → Bool} :
    ∀ {l : List Char} {x : Char}, x ∈ l.takeWhile p → p x = true := by
  intro l
  induction l with
  | nil => intro x h; simp [List.takeWhile] at h
  | cons c cs ih =>
    intro x h
    by_cases hc : p c = true
    · rw [List.takeWhile_cons_of_pos hc] at h
      rcases List.mem_cons.mp h with rfl | h'
      · exact hc
      · exact ih h'
    · rw [List.takeWhile_cons_of_neg (by simpa using hc)] at h
      simp at h

theorem dropWhile_head_neg {p : Char → Bool} :
    ∀ {l : List Char} {c : Char} {r : List Char},
      l.dropWhile p = c :: r → p c = false := by
  intro l
  induction l with
  | nil => intro c r h; simp [List.dropWhile] at h
  | cons a as ih =>
    intro c r h
    by_cases ha : p a = true
    · rw [List.dropWhile_cons_of_pos ha] at h; exact ih h
    · rw [List.dropWhile_cons_of_neg (by simpa using ha)] at h
      cases h; simpa using ha

theorem rstrip_append_ws {x w : List Char} (h : ∀ c ∈ w, isWsC c = true) :
    rstrip (x ++ w) = rstrip x := by
  unfold rstrip
  rw [List.reverse_append, dropWhile_all_append (by intro c hc; exact h c (by simpa using hc))]

theorem rstrip_all_ws {w : List Char} (h : ∀ c ∈ w, isWsC c = true) :
    rstrip w = [] := by
  have := rstrip_append_ws (x := []) h
  simpa [rstrip] using this

/-! ### split / join round trips -/

theorem splitNl_ne_nil (c : List Char) : splitNl c ≠ [] := by
  induction c with
  | nil => simp [splitNl]
  | cons a as ih =>
    by_cases h : a = '\n'
    · simp [splitNl, h]
    · simp only [splitNl, if_neg h]
      cases hs : splitNl as with
      | nil => simp
      | cons l ls => simp

theorem joinNl_splitNl (c : List Char) : joinNl (splitNl c) = c := by
  induction c with
  | nil => rfl
  | cons a as ih =>
    by_cases h : a = '\n'
    · subst h
      simp only [splitNl, if_pos rfl]
      cases hs : splitNl as with
      | nil => exact absurd hs (splitNl_ne_nil as)
      | cons l ls =>
        rw [hs] at ih
        simpa [joinNl] using ih
    · simp only [splitNl, if_neg h]
      cases hs : splitNl as with
      | nil => exact absurd hs (splitNl_ne_nil as)
      | cons l ls =>
        rw [hs] at ih
        cases ls with
        | nil => simpa [joinNl] using ih
        | cons x xs => simpa [joinNl] using ih

theorem mem_splitNl_no_nl : ∀ {c : List Char} {l : List Char},
    l ∈ splitNl c → '\n' ∉ l := by
  intro c
  induction c with
  | nil => intro l h; simp [splitNl] at h; simp [h]
  | cons a as ih =>
    intro l h
    by_cases ha : a = '\n'
    · simp only [splitNl, if_pos ha] at h
      rcases List.mem_cons.mp h with rfl | h'
      · simp
      · exact ih h'
    · simp only [splitNl, if_neg ha] at h
      cases hs : splitNl as with
      | nil => exact absurd hs (splitNl_ne_nil as)
      | cons x xs =>
        rw [hs] at h
        rcases List.mem_cons.mp h with rfl | h'
        · intro hmem
          rcases List.mem_cons.mp hmem with rfl | h2
          · exact ha rfl
          · exact ih (by rw [hs]; exact List.mem_cons_self x xs) h2
        · exact ih (by rw [hs]; exact List.mem_cons.mpr (Or.inr h'))

theorem splitNl_no_nl {l : List Char} (h : '\n' ∉ l) : splitNl l = [l] := by
  induction l with
  | nil => rfl
  | cons a as ih =>
    have ha : a ≠ '\n' := fun e => h (by simp [e])
    simp only [splitNl, if_neg ha]
    rw [ih (fun hm => h (List.mem_cons.mpr (Or.inr hm)))]

theorem splitNl_append_nl {l t : List Char} (h : '\n' ∉ l) :
    splitNl (l ++ '\n' :: t) = l :: splitNl t := by
  induction l with
  | nil => simp [splitNl]
  | cons a as ih =>
    have ha : a ≠ '\n' := fun e => h (by simp [e])
    simp only [List.cons_append, splitNl, if_neg ha, List.append_eq]
    rw [ih (fun hm => h (List.mem_cons.mpr (Or.inr hm)))]

theorem splitNl_joinNl : ∀ {lss : List (List Char)}, lss ≠ [] →
    (∀ l ∈ lss, '\n' ∉ l) → splitNl (joinNl lss) = lss := by
  intro lss
  induction lss with
  | nil => intro h; exact absurd rfl h
  | cons l ls ih =>
    intro _ hnl
    cases ls with
    | nil =>
      simpa [joinNl] using splitNl_no_nl (hnl l (by simp))
    | cons x xs =>
      have h1 : joinNl (l :: x :: xs) = l ++ '\n' :: joinNl (x :: xs) := rfl
      rw [h1, splitNl_append_nl (hnl l (by simp))]
      rw [ih (by simp) (fun y hy => hnl y (List.mem_cons.mpr (Or.inr hy)))]

/-! ### parseKeyColon -/

theorem parseKeyColon_some {r kc r2 : List Char}
    (h : parseKeyColon r = some (kc, r2)) :
    ∃ key, kc = key ++ [':'] ∧ key ≠ [] ∧ allKey key ∧ r = key ++ ':' :: r2 := by
  have hsplit := List.takeWhile_append_dropWhile (p := isKeyC) (l := r)
  unfold parseKeyColon at h
  cases htk : r.takeWhile isKeyC with
  | nil => rw [htk] at h; simp at h
  | cons a as =>
    cases hdk : r.dropWhile isKeyC with
    | nil => rw [htk, hdk] at h; simp at h
    | cons c cs =>
      rw [htk, hdk] at h
      by_cases hc : c = ':'
      · subst hc
        simp at h
        obtain ⟨h1, h2⟩ := h
        subst h2
        refine ⟨a :: as, h1.symm, by simp, ?_, ?_⟩
        · intro x hx
          exact mem_takeWhile_sat (by rw [htk]; exact hx)
        · rw [← hsplit, htk, hdk]
      · simp [hc] at h

theorem parseKeyColon_comp {k t : List Char}
    (hk : allKey k) (hne : k ≠ []) :
    parseKeyColon (k ++ ':' :: t) = some (k ++ [':'], t) := by
  have htk : (k ++ ':' :: t).takeWhile isKeyC = k := by
    rw [takeWhile_all_append hk, List.takeWhile_cons_of_neg (by decide)]
    simp
  have hdk : (k ++ ':' :: t).dropWhile isKeyC = ':' :: t := by
    rw [dropWhile_all_append hk, List.dropWhile_cons_of_neg (by decide)]
  unfold parseKeyColon
  rw [htk, hdk]
  cases k with
  | nil => exact absurd rfl hne
  | cons a as => simp

/-! ### parseLead -/

theorem headWs_elim {r : List Char} (h : headWs r = true) :
    ∃ c r', r = c :: r' ∧ isWsC c = true := by
  cases r with
  | nil => simp [headWs] at h
  | cons c r' => exact ⟨c, r', rfl, h⟩

theorem parseLead_eq_nil {l : List Char} (hr1 : l.dropWhile isWsC = []) :
    parseLead l = none := by
  unfold parseLead; rw [hr1]

theorem parseLead_eq_dash {l : List Char} {a : Char} {r2 kc r4 : List Char}
    (hr1 : l.dropWhile isWsC = a :: r2) (hd : (a = '-' && headWs r2) = true)
    (hpk : parseKeyColon (r2.dropWhile isWsC) = some (kc, r4)) :
    parseLead l = some (l.takeWhile isWsC ++ '-' :: r2.takeWhile isWsC ++ kc ++
      r4.takeWhile isWsC, r4.dropWhile isWsC) := by
  unfold parseLead
  rw [hr1]
  simp only [hd, hpk, if_true]

theorem parseLead_eq_dash_none {l : List Char} {a : Char} {r2 : List Char}
    (hr1 : l.dropWhile isWsC = a :: r2) (hd : (a = '-' && headWs r2) = true)
    (hpk : parseKeyColon (r2.dropWhile isWsC) = none) :
    parseLead l = none := by
  unfold parseLead
  rw [hr1]
  simp only [hd, hpk, if_true]

theorem parseLead_eq_plain {l : List Char} {a : Char} {r2 kc r4 : List Char}
    (hr1 : l.dropWhile isWsC = a :: r2) (hd : (a = '-' && headWs r2) = false)
    (hpk : parseKeyColon (a :: r2) = some (kc, r4)) :
    parseLead l = some (l.takeWhile isWsC ++ kc ++ r4.takeWhile isWsC,
      r4.dropWhile isWsC) := by
  unfold parseLead
  rw [hr1]
  simp only [hd, hpk, Bool.false_eq_true, if_false]

theorem parseLead_eq_plain_none {l : List Char} {a : Char} {r2 : List Char}
    (hr1 : l.dropWhile isWsC = a :: r2) (hd : (a = '-' && headWs r2) = false)
    (hpk : parseKeyColon (a :: r2) = none) :
    parseLead l = none := by
  unfold parseLead
  rw [hr1]
  simp only [hd, hpk, Bool.false_eq_true, if_false]

theorem parseLead_some {l g1 r4 : List Char} (h : parseLead l = some (g1, r4)) :
    ∃ w1 dp key w2, g1 = w1 ++ dp ++ key ++ ':' :: w2 ∧
      allWs w1 ∧ dashOk dp ∧ key ≠ [] ∧ allKey key ∧ allWs w2 ∧
      l = g1 ++ r4 := by
  have hsplit := List.takeWhile_append_dropWhile (p := isWsC) (l := l)
  have hw1 : allWs (l.takeWhile isWsC) := fun c hc => mem_takeWhile_sat hc
  cases hr1 : l.dropWhile isWsC with
  | nil => rw [parseLead_eq_nil hr1] at h; simp at h
  | cons a r2 =>
    by_cases hd : (a = '-' && headWs r2) = true
    · obtain ⟨ha, hws⟩ := Bool.and_eq_true_iff.mp hd
      have ha' : a = '-' := by simpa using ha
      subst ha'
      cases hpk : parseKeyColon (r2.dropWhile isWsC) with
      | none => rw [parseLead_eq_dash_none hr1 hd hpk] at h; simp at h
      | some pr =>
        obtain ⟨kc, r4'⟩ := pr
        rw [parseLead_eq_dash hr1 hd hpk] at h
        simp only [Option.some.injEq, Prod.mk.injEq] at h
        obtain ⟨hg, hr⟩ := h
        obtain ⟨key, hkc, hkne, hkey, hrest⟩ := parseKeyColon_some hpk
        obtain ⟨c, r2', hr2, hc⟩ := headWs_elim hws
        have hwd : allWs (r2.takeWhile isWsC) := fun x hx => mem_takeWhile_sat hx
        have hwdne : r2.takeWhile isWsC ≠ [] := by
          rw [hr2, List.takeWhile_cons_of_pos hc]; simp
        refine ⟨l.takeWhile isWsC, '-' :: r2.takeWhile isWsC, key,
          r4'.takeWhile isWsC, ?_, hw1, Or.inr ⟨_, rfl, hwdne, hwd⟩, hkne, hkey,
          (fun x hx => mem_takeWhile_sat hx), ?_⟩
        · rw [← hg, hkc]
          simp [List.append_assoc]
        · have hl : l = l.takeWhile isWsC ++ '-' :: r2 := by
            conv_lhs => rw [← hsplit]
            rw [hr1]
          have h3 := (List.takeWhile_append_dropWhile (p := isWsC) (l := r4')).symm
          rw [hr] at h3
          rw [h3] at hrest
          have h2 := (List.takeWhile_append_dropWhile (p := isWsC) (l := r2)).symm
          rw [hrest] at h2
          rw [h2] at hl
          rw [hl, ← hg, hkc]
          simp [List.append_assoc]
    · have hd' : (a = '-' && headWs r2) = false := by
        cases hx : (a = '-' && headWs r2) with
        | false => rfl
        | true => exact absurd hx hd
      cases hpk : parseKeyColon (a :: r2) with
      | none => rw [parseLead_eq_plain_none hr1 hd' hpk] at h; simp at h
      | some pr =>
        obtain ⟨kc, r4'⟩ := pr
        rw [parseLead_eq_plain hr1 hd' hpk] at h
        simp only [Option.some.injEq, Prod.mk.injEq] at h
        obtain ⟨hg, hr⟩ := h
        obtain ⟨key, hkc, hkne, hkey, hrest⟩ := parseKeyColon_some hpk
        refine ⟨l.takeWhile isWsC, [], key, r4'.takeWhile isWsC, ?_, hw1,
          Or.inl rfl, hkne, hkey, (fun x hx => mem_takeWhile_sat hx), ?_⟩
        · rw [← hg, hkc]
          simp [List.append_assoc]
        · have hl : l = l.takeWhile isWsC ++ (a :: r2) := by
            conv_lhs => rw [← hsplit]
            rw [hr1]
          have h3 := (List.takeWhile_append_dropWhile (p := isWsC) (l := r4')).symm
          rw [hr] at h3
          rw [h3] at hrest
          rw [hrest] at hl
          rw [hl, ← hg, hkc]
          simp [List.append_assoc]

theorem takeWhile_ws_stop {dp key t : List Char}
    (hdp : dashOk dp) (hkne : key ≠ []) (hkey : allKey key) :
    (dp ++ key ++ t).takeWhile isWsC = [] ∧
    (dp ++ key ++ t).dropWhile isWsC = dp ++ key ++ t := by
  rcases hdp with rfl | ⟨wd, rfl, _, _⟩
  · cases key with
    | nil => exact absurd rfl hkne
    | cons k ks =>
      have hk : isWsC k = false := keyC_not_ws (hkey k (by simp))
      constructor
      · simp only [List.nil_append, List.cons_append]
        rw [List.takeWhile_cons_of_neg (by simp [hk])]
      · simp only [List.nil_append, List.cons_append]
        rw [List.dropWhile_cons_of_neg (by simp [hk])]
  · constructor
    · simp only [List.cons_append]
      rw [List.takeWhile_cons_of_neg (by decide)]
    · simp only [List.cons_append]
      rw [List.dropWhile_cons_of_neg (by decide)]

theorem parseLead_comp (R : List Char) {w1 dp key w2 : List Char}
    (hw1 : allWs w1) (hdp : dashOk dp) (hkne : key ≠ []) (hkey : allKey key)
    (hw2 : allWs w2) :
    parseLead ((w1 ++ dp ++ key ++ ':' :: w2) ++ R) =
      some ((w1 ++ dp ++ key ++ ':' :: w2) ++ R.takeWhile isWsC,
            R.dropWhile isWsC) := by
  have hassoc : (w1 ++ dp ++ key ++ ':' :: w2) ++ R =
      w1 ++ (dp ++ key ++ (':' :: (w2 ++ R))) := by
    simp [List.append_assoc]
  obtain ⟨hstop1, hstop2⟩ :=
    takeWhile_ws_stop (t := ':' :: (w2 ++ R)) hdp hkne hkey
  have htw : ((w1 ++ dp ++ key ++ ':' :: w2) ++ R).takeWhile isWsC = w1 := by
    rw [hassoc, takeWhile_all_append hw1, hstop1, List.append_nil]
  have hdw : ((w1 ++ dp ++ key ++ ':' :: w2) ++ R).dropWhile isWsC =
      dp ++ key ++ ':' :: (w2 ++ R) := by
    rw [hassoc, dropWhile_all_append hw1, hstop2]
  have hw2R : (w2 ++ R).takeWhile isWsC = w2 ++ R.takeWhile isWsC :=
    takeWhile_all_append hw2
  have hw2R' : (w2 ++ R).dropWhile isWsC = R.dropWhile isWsC :=
    dropWhile_all_append hw2
  rcases hdp with rfl | ⟨wd, rfl, hwdne, hwd⟩
  · -- no dash piece: the scrutinee starts with the key
    cases key with
    | nil => exact absurd rfl hkne
    | cons k ks =>
      have hk : isKeyC k = true := hkey k (by simp)
      have hr1 : ((w1 ++ [] ++ (k :: ks) ++ ':' :: w2) ++ R).dropWhile isWsC =
          k :: (ks ++ ':' :: (w2 ++ R)) := by
        rw [hdw]; simp
      have hdcond : (k = '-' && headWs (ks ++ ':' :: (w2 ++ R))) = false := by
        have hh : headWs (ks ++ ':' :: (w2 ++ R)) = false := by
          cases ks with
          | nil => simp only [List.nil_append, headWs]; decide
          | cons k2 ks' =>
            simp only [List.cons_append, headWs]
            exact keyC_not_ws (hkey k2 (by simp))
        rw [hh, Bool.and_false]
      have hpk : parseKeyColon (k :: (ks ++ ':' :: (w2 ++ R))) =
          some ((k :: ks) ++ [':'], w2 ++ R) := by
        have := parseKeyColon_comp (k := k :: ks) (t := w2 ++ R) hkey hkne
        simpa using this
      rw [parseLead_eq_plain hr1 hdcond hpk, htw, hw2R, hw2R']
      simp [List.append_assoc]
  · -- dash piece `-\s+` present
    cases wd with
    | nil => exact absurd rfl hwdne
    | cons c wd' =>
    have hc : isWsC c = true := hwd c (by simp)
    have hr1 : ((w1 ++ ('-' :: c :: wd') ++ key ++ ':' :: w2) ++ R).dropWhile isWsC =
        '-' :: (c :: wd' ++ key ++ ':' :: (w2 ++ R)) := by
      rw [hdw]; simp [List.append_assoc]
    have hdcond : ('-' = '-' && headWs (c :: wd' ++ key ++ ':' :: (w2 ++ R))) = true := by
      simp [headWs, hc]
    have hkeyhead : ∀ x ∈ key, isWsC x = false := fun x hx => keyC_not_ws (hkey x hx)
    have hwd9 : allWs (c :: wd') := hwd
    have hdrop : (c :: wd' ++ key ++ ':' :: (w2 ++ R)).dropWhile isWsC =
        key ++ ':' :: (w2 ++ R) := by
      rw [show c :: wd' ++ key ++ ':' :: (w2 ++ R) =
            (c :: wd') ++ (key ++ ':' :: (w2 ++ R)) by simp [List.append_assoc],
          dropWhile_all_append hwd9]
      cases key with
      | nil => exact absurd rfl hkne
      | cons k ks =>
        simp only [List.cons_append]
        rw [List.dropWhile_cons_of_neg (by simp [keyC_not_ws (hkey k (by simp))])]
    have htake : (c :: wd' ++ key ++ ':' :: (w2 ++ R)).takeWhile isWsC = c :: wd' := by
      rw [show c :: wd' ++ key ++ ':' :: (w2 ++ R) =
            (c :: wd') ++ (key ++ ':' :: (w2 ++ R)) by simp [List.append_assoc],
          takeWhile_all_append hwd9]
      cases key with
      | nil => exact absurd rfl hkne
      | cons k ks =>
        simp only [List.cons_append]
        rw [List.takeWhile_cons_of_neg (by simp [keyC_not_ws (hkey k (by simp))])]
        simp
    have hpk : parseKeyColon ((c :: wd' ++ key ++ ':' :: (w2 ++ R)).dropWhile isWsC) =
        some (key ++ [':'], w2 ++ R) := by
      rw [hdrop]
      exact parseKeyColon_comp hkey hkne
    rw [parseLead_eq_dash hr1 hdcond hpk, htw, htake, hw2R, hw2R']
    simp [List.append_assoc]

theorem parseLead_ext {l g1 r4 : List Char} (h : parseLead l = some (g1, r4))
    (R : List Char) :
    parseLead (g1 ++ R) =
      some (g1 ++ R.takeWhile isWsC, R.dropWhile isWsC) := by
  obtain ⟨w1, dp, key, w2, hg1, hw1, hdp, hkne, hkey, hw2, _⟩ := parseLead_some h
  subst hg1
  exact parseLead_comp R hw1 hdp hkne hkey hw2

/-! ### parseQuote, parseTailComment, parseValueTail -/

theorem parseQuote_split (x : List Char) :
    x = (parseQuote x).1 ++ (parseQuote x).2 ∧ quoteOk (parseQuote x).1 := by
  cases x with
  | nil => exact ⟨rfl, Or.inl rfl⟩
  | cons c r =>
    by_cases hq : isQuoteC c = true
    · simp only [parseQuote, if_pos hq]
      exact ⟨rfl, Or.inr ⟨c, rfl, hq⟩⟩
    · simp only [parseQuote, if_neg hq]
      exact ⟨rfl, Or.inl rfl⟩

theorem parseQuote_pos {c : Char} {r : List Char} (hq : isQuoteC c = true) :
    parseQuote (c :: r) = ([c], r) := by
  simp only [parseQuote, if_pos hq]

theorem parseQuote_neg {c : Char} {r : List Char} (hq : isQuoteC c = false) :
    parseQuote (c :: r) = ([], c :: r) := by
  simp only [parseQuote, hq, Bool.false_eq_true, if_false]

theorem parseTailComment_hash (rest : List Char) :
    parseTailComment ('#' :: rest) = some ('#' :: rest) := by
  unfold parseTailComment
  rw [List.dropWhile_cons_of_neg (by decide)]
  rfl

theorem parseTailComment_of_sufOk {s : List Char} (h : sufOk s) :
    parseTailComment s = some s := by
  rcases h with rfl | ⟨w3, rest, rfl, hw3⟩
  · rfl
  · have hdw : (w3 ++ '#' :: rest).dropWhile isWsC = '#' :: rest := by
      rw [dropWhile_all_append hw3, List.dropWhile_cons_of_neg (by decide)]
    cases w3 with
    | nil =>
      simpa using parseTailComment_hash rest
    | cons c w3' =>
      unfold parseTailComment
      rw [hdw]
      rfl

theorem parseTailComment_some {r suf : List Char}
    (h : parseTailComment r = some suf) : suf = r ∧ sufOk r := by
  cases r with
  | nil =>
    simp [parseTailComment] at h
    exact ⟨h, Or.inl rfl⟩
  | cons a as =>
    unfold parseTailComment at h
    cases hdw : (a :: as).dropWhile isWsC with
    | nil => rw [hdw] at h; simp at h
    | cons b bs =>
      rw [hdw] at h
      by_cases hb : b = '#'
      · subst hb
        simp at h
        refine ⟨h.symm, Or.inr ⟨(a :: as).takeWhile isWsC, bs, ?_,
          fun x hx => mem_takeWhile_sat hx⟩⟩
        conv_lhs => rw [← List.takeWhile_append_dropWhile (p := isWsC) (l := a :: as)]
        rw [hdw]
      · simp [hb] at h

theorem parseValueTail_eq {r : List Char} {qc2 r7 suf2 : List Char}
    (hq : parseQuote (r.dropWhile isValC) = (qc2, r7))
    (ht : parseTailComment r7 = some suf2) :
    parseValueTail r = some (r.takeWhile isValC, qc2, suf2) := by
  simp only [parseValueTail, hq, ht]

theorem parseValueTail_some {r5 v qc suf : List Char}
    (h : parseValueTail r5 = some (v, qc, suf)) :
    v = r5.takeWhile isValC ∧ (∀ c ∈ v, isValC c = true) ∧ quoteOk qc ∧
      sufOk suf ∧ r5 = v ++ qc ++ suf := by
  obtain ⟨hsplitq, hqok⟩ := parseQuote_split (r5.dropWhile isValC)
  rcases hq : parseQuote (r5.dropWhile isValC) with ⟨qc', r7⟩
  rw [hq] at hsplitq hqok
  cases ht : parseTailComment r7 with
  | none =>
    rw [parseValueTail, hq] at h
    simp only [ht] at h
    exact Option.noConfusion h
  | some suf' =>
    rw [parseValueTail_eq hq ht] at h
    simp only [Option.some.injEq, Prod.mk.injEq] at h
    obtain ⟨hv, hqc, hsuf⟩ := h
    obtain ⟨hs1, hs2⟩ := parseTailComment_some ht
    subst hv hqc hsuf
    refine ⟨rfl, fun c hc => mem_takeWhile_sat hc, hqok, ?_, ?_⟩
    · rw [← hs1] at hs2; exact hs2
    · conv_lhs => rw [← List.takeWhile_append_dropWhile (p := isValC) (l := r5)]
      rw [hsplitq, hs1]
      simp [List.append_assoc]

/-! ### valueMatch : inversion and reparse -/

theorem valueMatch_eq_some {l g1 r4 qo r5 v qc suf : List Char}
    (h : parseLead l = some (g1, r4)) (hq : parseQuote r4 = (qo, r5))
    (ht : parseValueTail r5 = some (v, qc, suf)) :
    valueMatch l = some (g1, qo, v, qc, suf) := by
  simp only [valueMatch, h, hq, ht]

theorem valueMatch_eq_none_tail {l g1 r4 qo r5 : List Char}
    (h : parseLead l = some (g1, r4)) (hq : parseQuote r4 = (qo, r5))
    (ht : parseValueTail r5 = none) :
    valueMatch l = none := by
  simp only [valueMatch, h, hq, ht]

theorem valueMatch_eq_none_lead {l : List Char} (h : parseLead l = none) :
    valueMatch l = none := by
  simp only [valueMatch, h]

theorem valueMatch_some {l g1 qo v qc suf : List Char}
    (h : valueMatch l = some (g1, qo, v, qc, suf)) :
    parseLead l = some (g1, qo ++ v ++ qc ++ suf) ∧
    quoteOk qo ∧ (∀ c ∈ v, isValC c = true) ∧ quoteOk qc ∧ sufOk suf ∧
    l = g1 ++ qo ++ v ++ qc ++ suf := by
  cases hpl : parseLead l with
  | none =>
    rw [valueMatch_eq_none_lead hpl] at h
    exact Option.noConfusion h
  | some pr =>
    obtain ⟨g1', r4⟩ := pr
    obtain ⟨hqsplit, hqok⟩ := parseQuote_split r4
    rcases hq : parseQuote r4 with ⟨qo', r5⟩
    rw [hq] at hqsplit hqok
    cases ht : parseValueTail r5 with
    | none =>
      rw [valueMatch_eq_none_tail hpl hq ht] at h
      exact Option.noConfusion h
    | some tr =>
      obtain ⟨v2, qc2, suf2⟩ := tr
      rw [valueMatch_eq_some hpl hq ht] at h
      simp only [Option.some.injEq, Prod.mk.injEq] at h
      obtain ⟨hA, hB, hC, hD, hE⟩ := h
      obtain ⟨hv, hvall, hqcok, hsufok, hr5⟩ := parseValueTail_some ht
      have hqsplit' : r4 = qo' ++ r5 := by simpa using hqsplit
      have hqok' : quoteOk qo' := by simpa using hqok
      have hr4 : r4 = qo ++ v ++ qc ++ suf := by
        rw [hqsplit', hr5, hB, hC, hD, hE]
        simp [List.append_assoc]
      obtain ⟨_, _, _, _, _, _, _, _, _, _, hl⟩ := parseLead_some hpl
      refine ⟨?_, ?_, ?_, ?_, ?_, ?_⟩
      · rw [hA, hr4]
      · rw [← hB]; exact hqok'
      · intro c hc
        exact hvall c (by rw [hC]; exact hc)
      · rw [← hD]; exact hqcok
      · rw [← hE]; exact hsufok
      · rw [hl, hA, hr4]
        simp [List.append_assoc]

theorem takeWhile_all {p : Char → Bool} {xs : List Char}
    (h : ∀ x ∈ xs, p x = true) : xs.takeWhile p = xs := by
  have := takeWhile_all_append (b := ([] : List Char)) h
  simpa using this

theorem dropWhile_all {p : Char → Bool} {xs : List Char}
    (h : ∀ x ∈ xs, p x = true) : xs.dropWhile p = [] := by
  have := dropWhile_all_append (b := ([] : List Char)) h
  simpa using this

theorem parseValueTail_run {V Q s : List Char}
    (hV : ∀ c ∈ V, isValC c = true) (hVr : rstrip V = V)
    (hqc : quoteOk Q) (hsuf : sufOk s) (hnl : '\n' ∉ s) :
    ∃ v2 qc2 suf2, parseValueTail (V ++ Q ++ s) = some (v2, qc2, suf2) ∧
      rstrip v2 = V := by
  rcases hqc with rfl | ⟨q, rfl, hq⟩
  · rcases hsuf with rfl | ⟨w3, rest, rfl, hw3⟩
    · -- no close quote, no trailing comment
      refine ⟨V, [], [], ?_, hVr⟩
      have htv : (V ++ ([] : List Char) ++ ([] : List Char)).takeWhile isValC = V := by
        simp [takeWhile_all hV]
      have hdv : (V ++ ([] : List Char) ++ ([] : List Char)).dropWhile isValC = [] := by
        simp [dropWhile_all hV]
      have := parseValueTail_eq (r := V ++ [] ++ [])
        (by rw [hdv]) (by rfl)
      rw [htv] at this
      exact this
    · -- no close quote, trailing comment `\s*#.*`
      have hw3v : ∀ c ∈ w3, isValC c = true := by
        intro c hc
        refine wsC_valC (hw3 c hc) ?_
        intro he
        exact hnl (by rw [he] at hc; simp [hc])
      refine ⟨V ++ w3, [], '#' :: rest, ?_, ?_⟩
      · have htv : (V ++ ([] : List Char) ++ (w3 ++ '#' :: rest)).takeWhile isValC =
            V ++ w3 := by
          rw [List.append_nil, takeWhile_all_append hV, takeWhile_all_append hw3v,
            List.takeWhile_cons_of_neg (by decide)]
          simp
        have hdv : (V ++ ([] : List Char) ++ (w3 ++ '#' :: rest)).dropWhile isValC =
            '#' :: rest := by
          rw [List.append_nil, dropWhile_all_append hV, dropWhile_all_append hw3v,
            List.dropWhile_cons_of_neg (by decide)]
        have := parseValueTail_eq (r := V ++ [] ++ (w3 ++ '#' :: rest))
          (by rw [hdv]; exact parseQuote_neg (by decide))
          (parseTailComment_hash rest)
        rw [htv] at this
        simpa using this
      · rw [rstrip_append_ws hw3, hVr]
  · -- close quote present
    refine ⟨V, [q], s, ?_, hVr⟩
    have htv : (V ++ [q] ++ s).takeWhile isValC = V := by
      rw [show V ++ [q] ++ s = V ++ (q :: s) by simp,
        takeWhile_all_append hV,
        List.takeWhile_cons_of_neg (by simp [quoteC_not_val hq])]
      simp
    have hdv : (V ++ [q] ++ s).dropWhile isValC = q :: s := by
      rw [show V ++ [q] ++ s = V ++ (q :: s) by simp,
        dropWhile_all_append hV,
        List.dropWhile_cons_of_neg (by simp [quoteC_not_val hq])]
    have := parseValueTail_eq (r := V ++ [q] ++ s)
      (by rw [hdv]; exact parseQuote_pos hq)
      (parseTailComment_of_sufOk hsuf)
    rw [htv] at this
    exact this

theorem rstrip_nil : rstrip [] = [] := rfl

theorem valueMatch_of_lead_run {l g1 r4 R qo2 r5 v2 qc2 suf2 : List Char}
    (hpl : parseLead l = some (g1, r4))
    (hq : parseQuote (R.dropWhile isWsC) = (qo2, r5))
    (ht : parseValueTail r5 = some (v2, qc2, suf2)) :
    valueMatch (g1 ++ R) = some (g1 ++ R.takeWhile isWsC, qo2, v2, qc2, suf2) :=
  valueMatch_eq_some (parseLead_ext hpl R) hq ht

/-- Re-parsing a rebuilt value line: when the substituted value `V` contains
no quote, `#` or newline character, does not start with whitespace, and has
no trailing whitespace, the rebuilt line `g1 ++ qo ++ V ++ qc ++ suf`
matches the value pattern again and the extracted (right-stripped) value is
exactly `V`. -/
theorem valueMatch_rebuild {l g1 qo v qc suf V : List Char}
    (h : valueMatch l = some (g1, qo, v, qc, suf))
    (hVval : ∀ c ∈ V, isValC c = true)
    (hVhead : headWs V = false)
    (hVr : rstrip V = V)
    (hnl : '\n' ∉ suf) :
    ∃ g2 qo2 v2 qc2 suf2,
      valueMatch (g1 ++ qo ++ V ++ qc ++ suf) = some (g2, qo2, v2, qc2, suf2) ∧
      rstrip v2 = V := by
  obtain ⟨hpl, hqoOk, _, hqcOk, hsufOk, _⟩ := valueMatch_some h
  rcases hqoOk with rfl | ⟨q, rfl, hq⟩
  · -- no opening quote
    cases V with
    | cons c V' =>
      have hcw : isWsC c = false := by simpa [headWs] using hVhead
      have hcv : isValC c = true := hVval c (by simp)
      have he : (([] : List Char) ++ (c :: V') ++ qc ++ suf) =
          c :: (V' ++ qc ++ suf) := by simp
      have hdropR : (([] : List Char) ++ (c :: V') ++ qc ++ suf).dropWhile isWsC =
          c :: (V' ++ qc ++ suf) := by
        rw [he, List.dropWhile_cons_of_neg (by simp [hcw])]
      have htakeR : (([] : List Char) ++ (c :: V') ++ qc ++ suf).takeWhile isWsC = [] := by
        rw [he, List.takeWhile_cons_of_neg (by simp [hcw])]
      have hqfull : parseQuote
          ((([] : List Char) ++ (c :: V') ++ qc ++ suf).dropWhile isWsC) =
          ([], c :: (V' ++ qc ++ suf)) := by
        rw [hdropR]
        exact parseQuote_neg (valC_not_quote hcv)
      obtain ⟨v2, qc2, suf2, hrun, hrs⟩ :=
        parseValueTail_run hVval hVr hqcOk hsufOk hnl
      have hrun2 : parseValueTail (c :: (V' ++ qc ++ suf)) =
          some (v2, qc2, suf2) := by
        have he2 : ((c :: V') ++ qc ++ suf : List Char) =
            c :: (V' ++ qc ++ suf) := by simp
        rw [← he2]
        exact hrun
      have := valueMatch_of_lead_run
        (R := [] ++ (c :: V') ++ qc ++ suf) hpl hqfull hrun2
      rw [htakeR] at this
      refine ⟨g1, [], v2, qc2, suf2, ?_, hrs⟩
      simpa using this
    | nil =>
      rcases hqcOk with rfl | ⟨q', rfl, hq'⟩
      · rcases hsufOk with rfl | ⟨w3, rest, rfl, hw3⟩
        · -- empty value, no quotes, no comment: the line is exactly `g1`
          refine ⟨g1, [], [], [], [], ?_, rstrip_nil⟩
          have hqfull : parseQuote
              ((([] : List Char) ++ [] ++ [] ++ []).dropWhile isWsC) =
              ([], []) := by rfl
          have := valueMatch_of_lead_run
            (R := ([] : List Char) ++ [] ++ [] ++ []) hpl hqfull (by rfl)
          simpa using this
        · -- empty value, comment `\s*#.*`
          have he : (([] : List Char) ++ [] ++ [] ++ (w3 ++ '#' :: rest)) =
              w3 ++ '#' :: rest := by simp
          have hdropR : (([] : List Char) ++ [] ++ [] ++
              (w3 ++ '#' :: rest)).dropWhile isWsC = '#' :: rest := by
            rw [he, dropWhile_all_append hw3,
              List.dropWhile_cons_of_neg (by decide)]
          have htakeR : (([] : List Char) ++ [] ++ [] ++
              (w3 ++ '#' :: rest)).takeWhile isWsC = w3 := by
            rw [he, takeWhile_all_append hw3,
              List.takeWhile_cons_of_neg (by decide)]
            simp
          have hvt : parseValueTail ('#' :: rest) = some ([], [], '#' :: rest) := by
            have h1 : ('#' :: rest).dropWhile isValC = '#' :: rest :=
              List.dropWhile_cons_of_neg (by decide)
            have h2 : ('#' :: rest).takeWhile isValC = [] :=
              List.takeWhile_cons_of_neg (by decide)
            have := parseValueTail_eq (r := '#' :: rest)
              (by rw [h1]; exact parseQuote_neg (by decide))
              (parseTailComment_hash rest)
            rw [h2] at this
            exact this
          have hqfull : parseQuote ((([] : List Char) ++ [] ++ [] ++
              (w3 ++ '#' :: rest)).dropWhile isWsC) = ([], '#' :: rest) := by
            rw [hdropR]
            exact parseQuote_neg (by decide)
          have := valueMatch_of_lead_run
            (R := ([] : List Char) ++ [] ++ [] ++ (w3 ++ '#' :: rest)) hpl hqfull hvt
          rw [htakeR] at this
          refine ⟨g1 ++ w3, [], [], [], '#' :: rest, ?_, rstrip_nil⟩
          simpa using this
      · -- empty value, closing quote `q'` (re-parsed as an opening quote)
        have he : (([] : List Char) ++ [] ++ [q'] ++ suf) = q' :: suf := by simp
        have hdropR : (([] : List Char) ++ [] ++ [q'] ++ suf).dropWhile isWsC =
            q' :: suf := by
          rw [he, List.dropWhile_cons_of_neg (by simp [quoteC_not_ws hq'])]
        have htakeR : (([] : List Char) ++ [] ++ [q'] ++ suf).takeWhile isWsC = [] := by
          rw [he, List.takeWhile_cons_of_neg (by simp [quoteC_not_ws hq'])]
        have hqfull : parseQuote
            ((([] : List Char) ++ [] ++ [q'] ++ suf).dropWhile isWsC) =
            ([q'], suf) := by
          rw [hdropR]
          exact parseQuote_pos hq'
        obtain ⟨v2, qc2, suf2, hrun, hrs⟩ :=
          parseValueTail_run (V := []) (Q := []) (by simp) rstrip_nil
            (Or.inl rfl) hsufOk hnl
        have hrun2 : parseValueTail suf = some (v2, qc2, suf2) := by
          simpa using hrun
        have := valueMatch_of_lead_run
          (R := ([] : List Char) ++ [] ++ [q'] ++ suf) hpl hqfull hrun2
        rw [htakeR] at this
        refine ⟨g1, [q'], v2, qc2, suf2, ?_, hrs⟩
        simpa using this
  · -- opening quote `q`
    have he : (([q] : List Char) ++ V ++ qc ++ suf) = q :: (V ++ qc ++ suf) := by
      simp
    have hdropR : (([q] : List Char) ++ V ++ qc ++ suf).dropWhile isWsC =
        q :: (V ++ qc ++ suf) := by
      rw [he, List.dropWhile_cons_of_neg (by simp [quoteC_not_ws hq])]
    have htakeR : (([q] : List Char) ++ V ++ qc ++ suf).takeWhile isWsC = [] := by
      rw [he, List.takeWhile_cons_of_neg (by simp [quoteC_not_ws hq])]
    have hqfull : parseQuote ((([q] : List Char) ++ V ++ qc ++ suf).dropWhile isWsC) =
        ([q], V ++ qc ++ suf) := by
      rw [hdropR]
      exact parseQuote_pos hq
    obtain ⟨v2, qc2, suf2, hrun, hrs⟩ :=
      parseValueTail_run hVval hVr hqcOk hsufOk hnl
    have := valueMatch_of_lead_run
      (R := ([q] : List Char) ++ V ++ qc ++ suf) hpl hqfull hrun
    rw [htakeR] at this
    refine ⟨g1, [q], v2, qc2, suf2, ?_, hrs⟩
    simpa using this

/-! ### The marker search ignores hash-free prefixes -/

theorem markerSearch_no_hash_append {a b : List Char}
    (h : ∀ c ∈ a, c ≠ '#') :
    markerSearch (a ++ b) = markerSearch b := by
  induction a with
  | nil => rfl
  | cons x xs ih =>
    have hx : ¬ x = '#' := h x (by simp)
    simp only [List.cons_append, markerSearch, if_neg hx]
    exact ih (fun c hc => h c (by simp [hc]))

theorem quoteOk_no_hash {q : List Char} (h : quoteOk q) : ∀ c ∈ q, c ≠ '#' := by
  rcases h with rfl | ⟨x, rfl, hx⟩
  · simp
  · intro c hc
    rw [List.mem_singleton.mp hc]
    exact quoteC_ne_hash hx

theorem g1_no_hash {l g1 r4 : List Char} (h : parseLead l = some (g1, r4)) :
    ∀ c ∈ g1, c ≠ '#' := by
  obtain ⟨w1, dp, key, w2, hg1, hw1, hdp, _, hkey, hw2, _⟩ := parseLead_some h
  subst hg1
  intro c hc
  rcases List.mem_append.mp hc with hc' | hc'
  · rcases List.mem_append.mp hc' with hc'' | hc''
    · rcases List.mem_append.mp hc'' with hc3 | hc3
      · exact wsC_ne_hash (hw1 c hc3)
      · rcases hdp with rfl | ⟨wd, rfl, _, hwd⟩
        · simp at hc3
        · rcases List.mem_cons.mp hc3 with rfl | hc4
          · decide
          · exact wsC_ne_hash (hwd c hc4)
    · exact keyC_ne_hash (hkey c hc'')
  · rcases List.mem_cons.mp hc' with rfl | hc''
    · decide
    · exact wsC_ne_hash (hw2 c hc'')

/-- A line that matches the value pattern is a marker line exactly when its
trailing-comment group is: all characters before the suffix group are
hash-free, and the marker pattern can only start at a `#`. -/
theorem isMarkerLine_of_valueMatch {l g1 qo v qc suf d : List Char}
    (h : valueMatch l = some (g1, qo, v, qc, suf)) :
    isMarkerLine d l = isMarkerLine d suf := by
  obtain ⟨hpl, hqoOk, hvOk, hqcOk, _, hl⟩ := valueMatch_some h
  have hnh : ∀ c ∈ g1 ++ qo ++ v ++ qc, c ≠ '#' := by
    intro c hc
    rcases List.mem_append.mp hc with hc' | hc'
    · rcases List.mem_append.mp hc' with hc'' | hc''
      · rcases List.mem_append.mp hc'' with hc3 | hc3
        · exact g1_no_hash hpl c hc3
        · exact quoteOk_no_hash hqoOk c hc3
      · exact valC_ne_hash (hvOk c hc'')
    · exact quoteOk_no_hash hqcOk c hc'
  have he : l = (g1 ++ qo ++ v ++ qc) ++ suf := by
    rw [hl]
  unfold isMarkerLine
  rw [he, markerSearch_no_hash_append hnh]

/-- Rebuilding the value line with a hash-free value does not change
whether the line is a marker line. -/
theorem isMarkerLine_rebuild {l g1 qo v qc suf d V : List Char}
    (h : valueMatch l = some (g1, qo, v, qc, suf))
    (hV : ∀ c ∈ V, isValC c = true) :
    isMarkerLine d (g1 ++ qo ++ V ++ qc ++ suf) = isMarkerLine d l := by
  obtain ⟨hpl, hqoOk, hvOk, hqcOk, _, hl⟩ := valueMatch_some h
  have hnh : ∀ c ∈ g1 ++ qo ++ V ++ qc, c ≠ '#' := by
    intro c hc
    rcases List.mem_append.mp hc with hc' | hc'
    · rcases List.mem_append.mp hc' with hc'' | hc''
      · rcases List.mem_append.mp hc'' with hc3 | hc3
        · exact g1_no_hash hpl c hc3
        · exact quoteOk_no_hash hqoOk c hc3
      · exact valC_ne_hash (hV c hc'')
    · exact quoteOk_no_hash hqcOk c hc'
  have he : g1 ++ qo ++ V ++ qc ++ suf = (g1 ++ qo ++ V ++ qc) ++ suf := by
    simp [List.append_assoc]
  rw [isMarkerLine_of_valueMatch h]
  unfold isMarkerLine
  rw [he, markerSearch_no_hash_append hnh]

theorem optOr_some_right (a : Option (List Char)) (x : List Char)
    (c : Option (List Char)) :
    optOr (optOr a (some x)) c = optOr a (some x) := by
  cases a <;> rfl

theorem optOr_none_right (a : Option (List Char)) : optOr a none = a := by
  cases a <;> rfl

/-- The loop of `replace_marked_value` (a left fold with the mutable
state) computes exactly `procRec` started from the state's flag. -/
theorem foldl_patchStep (d V : List Char) :
    ∀ (L : List (List Char)) (s : PatchState),
      L.foldl (patchStep d V) s =
        ⟨s.result ++ (procRec d V s.replace_next L).lines,
         (procRec d V s.replace_next L).flag,
         optOr (procRec d V s.replace_next L).old s.old_value,
         s.changed || (procRec d V s.replace_next L).changed⟩ := by
  intro L
  induction L with
  | nil =>
    intro s
    cases s with
    | mk res rn ov ch =>
      simp [procRec, optOr]
  | cons l ls ih =>
    intro s
    rw [List.foldl_cons, ih (patchStep d V s l)]
    by_cases hm : isMarkerLine d l = true
    · have hstep : patchStep d V s l =
          ⟨s.result ++ [l], true, s.old_value, s.changed⟩ := by
        simp [patchStep, hm]
      rw [hstep]
      simp only [procRec, hm, if_true]
      simp [List.append_assoc]
    · have hm' : isMarkerLine d l = false := by
        cases hx : isMarkerLine d l with
        | false => rfl
        | true => exact absurd hx hm
      cases hf : s.replace_next with
      | false =>
        have hstep : patchStep d V s l =
            ⟨s.result ++ [l], false, s.old_value, s.changed⟩ := by
          simp [patchStep, hm', hf]
        rw [hstep]
        simp only [procRec, hm', Bool.false_eq_true, if_false]
        simp [List.append_assoc]
      | true =>
        cases hvm : valueMatch l with
        | none =>
          have hstep : patchStep d V s l =
              ⟨s.result ++ [l], false, s.old_value, s.changed⟩ := by
            simp [patchStep, hm', hf, hvm]
          rw [hstep]
          simp only [procRec, hm', Bool.false_eq_true, if_false, hvm, if_true]
          simp [List.append_assoc]
        | some tr =>
          obtain ⟨g1, qo, v, qc, suf⟩ := tr
          by_cases hne : rstrip v ≠ V
          · have hstep : patchStep d V s l =
                ⟨s.result ++ [g1 ++ qo ++ V ++ qc ++ suf], false,
                  some (rstrip v), true⟩ := by
              simp [patchStep, hm', hf, hvm, hne]
            rw [hstep]
            simp only [procRec, hm', Bool.false_eq_true, if_false, hvm, hne,
              if_true]
            simp [List.append_assoc, optOr_some_right, hne]
          · have heq : rstrip v = V := of_not_not hne
            have hstep : patchStep d V s l =
                ⟨s.result ++ [l], false, some (rstrip v), s.changed⟩ := by
              simp [patchStep, hm', hf, hvm, hne]
            rw [hstep]
            simp only [procRec, hm', Bool.false_eq_true, if_false, hvm]
            simp [List.append_assoc, optOr_some_right, heq]

/-! ### Branch equations and characterizations of procRec -/

theorem procRec_eq_marker {d V l : List Char} {f : Bool} {ls : List (List Char)}
    (hm : isMarkerLine d l = true) :
    procRec d V f (l :: ls) =
      ⟨l :: (procRec d V true ls).lines, (procRec d V true ls).flag,
       (procRec d V true ls).old, (procRec d V true ls).changed⟩ := by
  simp [procRec, hm]

theorem procRec_eq_idle {d V l : List Char} {ls : List (List Char)}
    (hm : isMarkerLine d l = false) :
    procRec d V false (l :: ls) =
      ⟨l :: (procRec d V false ls).lines, (procRec d V false ls).flag,
       (procRec d V false ls).old, (procRec d V false ls).changed⟩ := by
  simp [procRec, hm]

theorem procRec_eq_nomatch {d V l : List Char} {ls : List (List Char)}
    (hm : isMarkerLine d l = false) (hvm : valueMatch l = none) :
    procRec d V true (l :: ls) =
      ⟨l :: (procRec d V false ls).lines, (procRec d V false ls).flag,
       (procRec d V false ls).old, (procRec d V false ls).changed⟩ := by
  simp [procRec, hm, hvm]

theorem procRec_eq_subst {d V l g1 qo v qc suf : List Char}
    {ls : List (List Char)}
    (hm : isMarkerLine d l = false)
    (hvm : valueMatch l = some (g1, qo, v, qc, suf))
    (hne : rstrip v ≠ V) :
    procRec d V true (l :: ls) =
      ⟨(g1 ++ qo ++ V ++ qc ++ suf) :: (procRec d V false ls).lines,
       (procRec d V false ls).flag,
       optOr (procRec d V false ls).old (some (rstrip v)), true⟩ := by
  simp [procRec, hm, hvm, hne]

theorem procRec_eq_noop {d V l g1 qo v qc suf : List Char}
    {ls : List (List Char)}
    (hm : isMarkerLine d l = false)
    (hvm : valueMatch l = some (g1, qo, v, qc, suf))
    (heq : rstrip v = V) :
    procRec d V true (l :: ls) =
      ⟨l :: (procRec d V false ls).lines, (procRec d V false ls).flag,
       optOr (procRec d V false ls).old (some (rstrip v)),
       (procRec d V false ls).changed⟩ := by
  simp [procRec, hm, hvm, heq]

theorem procRec_cons (d V : List Char) (f : Bool) (l : List Char)
    (ls : List (List Char)) :
    (procRec d V f (l :: ls)).lines =
      lineOut d V f l :: (procRec d V (isMarkerLine d l) ls).lines := by
  by_cases hm : isMarkerLine d l = true
  · rw [procRec_eq_marker hm, hm]
    simp [lineOut, hm]
  · have hm' : isMarkerLine d l = false := by
      cases hx : isMarkerLine d l with
      | false => rfl
      | true => exact absurd hx hm
    rw [hm']
    cases f with
    | false =>
      rw [procRec_eq_idle hm']
      simp [lineOut, hm']
    | true =>
      cases hvm : valueMatch l with
      | none =>
        rw [procRec_eq_nomatch hm' hvm]
        simp [lineOut, hm', hvm]
      | some tr =>
        obtain ⟨g1, qo, v, qc, suf⟩ := tr
        by_cases hne : rstrip v ≠ V
        · rw [procRec_eq_subst hm' hvm hne]
          simp [lineOut, hm', hvm, hne]
        · have heq : rstrip v = V := of_not_not hne
          rw [procRec_eq_noop hm' hvm heq]
          simp [lineOut, hm', hvm, heq]

theorem procRec_length (d V : List Char) :
    ∀ (L : List (List Char)) (f : Bool),
      (procRec d V f L).lines.length = L.length := by
  intro L
  induction L with
  | nil => intro f; rfl
  | cons l ls ih =>
    intro f
    rw [procRec_cons]
    simp [ih]

theorem procRec_no_marker (d V : List Char) :
    ∀ (L : List (List Char)), (∀ l ∈ L, isMarkerLine d l = false) →
      procRec d V false L = ⟨L, false, none, false⟩ := by
  intro L
  induction L with
  | nil => intro _; rfl
  | cons l ls ih =>
    intro h
    rw [procRec_eq_idle (h l (by simp)),
      ih (fun y hy => h y (List.mem_cons.mpr (Or.inr hy)))]

theorem procRec_pass (d V : List Char) :
    ∀ (A M : List (List Char)), (∀ l ∈ A, isMarkerLine d l = false) →
      procRec d V false (A ++ M) =
        ⟨A ++ (procRec d V false M).lines, (procRec d V false M).flag,
         (procRec d V false M).old, (procRec d V false M).changed⟩ := by
  intro A
  induction A with
  | nil => intro M _; simp
  | cons a A' ih =>
    intro M h
    rw [List.cons_append, procRec_eq_idle (h a (by simp)),
      ih M (fun y hy => h y (List.mem_cons.mpr (Or.inr hy)))]
    simp

theorem procRec_get (d V : List Char) :
    ∀ (L : List (List Char)) (f : Bool) (j : Nat) (lm lv : List Char),
      L.get? j = some lm → L.get? (j + 1) = some lv →
      (procRec d V f L).lines.get? (j + 1) =
        some (lineOut d V (isMarkerLine d lm) lv) := by
  intro L
  induction L with
  | nil => intro f j lm lv h1 _; simp at h1
  | cons l ls ih =>
    intro f j lm lv h1 h2
    cases j with
    | zero =>
      have hl : l = lm := by simpa using h1
      subst hl
      cases ls with
      | nil => simp at h2
      | cons l2 ls2 =>
        have hl2 : l2 = lv := by simpa using h2
        subst hl2
        rw [procRec_cons, procRec_cons]
        rfl
    | succ j' =>
      rw [procRec_cons]
      have h1' : ls.get? j' = some lm := by simpa using h1
      have h2' : ls.get? (j' + 1) = some lv := by simpa using h2
      have := ih (isMarkerLine d l) j' lm lv h1' h2'
      simpa using this

theorem rebuilt_no_nl {x g1 qo v qc suf V : List Char}
    (h : valueMatch x = some (g1, qo, v, qc, suf)) (hx : '\n' ∉ x)
    (hV : '\n' ∉ V) :
    '\n' ∉ (g1 ++ qo ++ V ++ qc ++ suf) := by
  obtain ⟨_, _, _, _, _, hl⟩ := valueMatch_some h
  intro hmem
  rcases List.mem_append.mp hmem with h1 | h1
  · rcases List.mem_append.mp h1 with h2 | h2
    · rcases List.mem_append.mp h2 with h3 | h3
      · exact hx (by
          rw [hl]
          exact List.mem_append.mpr (Or.inl (List.mem_append.mpr (Or.inl
            (List.mem_append.mpr (Or.inl h3))))))
      · exact hV h3
    · exact hx (by
        rw [hl]
        exact List.mem_append.mpr (Or.inl (List.mem_append.mpr (Or.inr h2))))
  · exact hx (by rw [hl]; exact List.mem_append.mpr (Or.inr h1))

theorem lineOut_no_nl {d V : List Char} {f : Bool} {l : List Char}
    (hl : '\n' ∉ l) (hV : '\n' ∉ V) : '\n' ∉ lineOut d V f l := by
  unfold lineOut
  by_cases hm : isMarkerLine d l = true
  · simpa [hm] using hl
  · have hm' : isMarkerLine d l = false := by
      cases hx : isMarkerLine d l with
      | false => rfl
      | true => exact absurd hx hm
    cases f with
    | false => simpa [hm'] using hl
    | true =>
      cases hvm : valueMatch l with
      | none => simpa [hm', hvm] using hl
      | some tr =>
        obtain ⟨g1, qo, v, qc, suf⟩ := tr
        by_cases hne : rstrip v ≠ V
        · simpa [hm', hvm, hne] using rebuilt_no_nl hvm hl hV
        · simpa [hm', hvm, hne] using hl

theorem procRec_no_nl (d V : List Char) (hV : '\n' ∉ V) :
    ∀ (L : List (List Char)) (f : Bool), (∀ l ∈ L, '\n' ∉ l) →
      ∀ l ∈ (procRec d V f L).lines, '\n' ∉ l := by
  intro L
  induction L with
  | nil => intro f _ l hl; simp [procRec] at hl
  | cons x ls ih =>
    intro f h l hl
    rw [procRec_cons] at hl
    rcases List.mem_cons.mp hl with rfl | hl'
    · exact lineOut_no_nl (h x (by simp)) hV
    · exact ih (isMarkerLine d x) (fun y hy => h y (List.mem_cons.mpr (Or.inr hy)))
        l hl'

theorem valueOk_elim {V : List Char} (h : valueOk V = true) :
    (∀ c ∈ V, isValC c = true) ∧ headWs V = false ∧ rstrip V = V := by
  have h' := h
  unfold valueOk at h'
  simp only [Bool.and_eq_true, Bool.not_eq_true', decide_eq_true_eq,
    List.all_eq_true] at h'
  exact ⟨fun c hc => h'.1.1 c hc, h'.1.2, h'.2⟩

theorem valueOk_no_nl {V : List Char} (h : valueOk V = true) : '\n' ∉ V := by
  intro hmem
  have := (valueOk_elim h).1 '\n' hmem
  exact absurd this (by decide)

/-- Idempotence of the line-processing recursion for admissible values. -/
theorem procRec_idem (d V : List Char) (hok : valueOk V = true) :
    ∀ (L : List (List Char)) (f : Bool), (∀ l ∈ L, '\n' ∉ l) →
      (procRec d V f (procRec d V f L).lines).lines = (procRec d V f L).lines ∧
      (procRec d V f (procRec d V f L).lines).changed = false := by
  obtain ⟨hVval, hVhead, hVr⟩ := valueOk_elim hok
  intro L
  induction L with
  | nil => intro f _; exact ⟨rfl, rfl⟩
  | cons l ls ih =>
    intro f hnl
    have hnl' : ∀ y ∈ ls, '\n' ∉ y :=
      fun y hy => hnl y (List.mem_cons.mpr (Or.inr hy))
    by_cases hm : isMarkerLine d l = true
    · rw [procRec_eq_marker hm]
      rw [procRec_eq_marker hm]
      obtain ⟨h1, h2⟩ := ih true hnl'
      exact ⟨by rw [h1], h2⟩
    · have hm' : isMarkerLine d l = false := by
        cases hx : isMarkerLine d l with
        | false => rfl
        | true => exact absurd hx hm
      cases f with
      | false =>
        rw [procRec_eq_idle hm']
        rw [procRec_eq_idle hm']
        obtain ⟨h1, h2⟩ := ih false hnl'
        exact ⟨by rw [h1], h2⟩
      | true =>
        cases hvm : valueMatch l with
        | none =>
          rw [procRec_eq_nomatch hm' hvm]
          rw [procRec_eq_nomatch hm' hvm]
          obtain ⟨h1, h2⟩ := ih false hnl'
          exact ⟨by rw [h1], h2⟩
        | some tr =>
          obtain ⟨g1, qo, v, qc, suf⟩ := tr
          by_cases hne : rstrip v ≠ V
          · -- the line is rebuilt; re-parsing yields value exactly V
            rw [procRec_eq_subst hm' hvm hne]
            have hnll : '\n' ∉ l := hnl l (by simp)
            have hnlsuf : '\n' ∉ suf := by
              obtain ⟨_, _, _, _, _, hleq⟩ := valueMatch_some hvm
              intro hmem
              exact hnll (by rw [hleq]; exact List.mem_append.mpr (Or.inr hmem))
            obtain ⟨g2, qo2, v2, qc2, suf2, hvm2, hv2⟩ :=
              valueMatch_rebuild hvm hVval hVhead hVr hnlsuf
            have hm2 : isMarkerLine d (g1 ++ qo ++ V ++ qc ++ suf) = false := by
              rw [isMarkerLine_rebuild hvm hVval, hm']
            have e2 := @procRec_eq_noop d V (g1 ++ qo ++ V ++ qc ++ suf)
              g2 qo2 v2 qc2 suf2 ((procRec d V false ls).lines) hm2 hvm2 hv2
            obtain ⟨h1, h2⟩ := ih false hnl'
            simp only [e2]
            exact ⟨by rw [h1], h2⟩
          · have heq : rstrip v = V := of_not_not hne
            rw [procRec_eq_noop hm' hvm heq]
            rw [procRec_eq_noop hm' hvm heq]
            obtain ⟨h1, h2⟩ := ih false hnl'
            exact ⟨by rw [h1], h2⟩

/-! ### replace_marked_value through procRec -/

theorem replace_marked_value_eq (c d V : List Char) :
    replace_marked_value c d V =
      (joinNl (procRec d V false (splitNl c)).lines,
       (procRec d V false (splitNl c)).old,
       (procRec d V false (splitNl c)).changed) := by
  unfold replace_marked_value
  rw [foldl_patchStep]
  simp [optOr_none_right]

theorem procRec_lines_ne_nil (d V : List Char) (c : List Char) :
    (procRec d V false (splitNl c)).lines ≠ [] := by
  intro he
  have h1 := procRec_length d V (splitNl c) false
  rw [he] at h1
  exact splitNl_ne_nil c (List.length_eq_zero.mp h1.symm)

theorem splitNl_output (c d V : List Char) (hV : '\n' ∉ V) :
    splitNl (replace_marked_value c d V).1 =
      (procRec d V false (splitNl c)).lines := by
  rw [replace_marked_value_eq]
  exact splitNl_joinNl (procRec_lines_ne_nil d V c)
    (procRec_no_nl d V hV (splitNl c) false (fun l hl => mem_splitNl_no_nl hl))

/-! ### Claim theorems about the Value Patcher -/

/-- **C9** (confirmed).  For every content containing no marker line whose
name equals `dep_name`, `replace_marked_value` returns content identical to
the input, old value `none`, and `changed = false`. -/
theorem C9_no_marker_identity (c d V : List Char)
    (h : ∀ l ∈ splitNl c, isMarkerLine d l = false) :
    replace_marked_value c d V = (c, none, false) := by
  rw [replace_marked_value_eq, procRec_no_marker d V (splitNl c) h]
  simp [joinNl_splitNl]

/-- Witness for C9 at a concrete input. -/
theorem C9_no_marker_identity_witness :
    (∀ l ∈ splitNl ("a: 1\nb: 2".toList), isMarkerLine ("app".toList) l = false) ∧
    replace_marked_value ("a: 1\nb: 2".toList) ("app".toList) ("9".toList) =
      ("a: 1\nb: 2".toList, none, false) :=
  ⟨by decide, C9_no_marker_identity _ _ _ (by decide)⟩

/-- **C10** (confirmed).  For every content, marker name, and new value
containing no newline character, the output of `replace_marked_value`
splits into exactly the same number of lines as the input: lines are never
inserted or deleted. -/
theorem C10_line_count (c d V : List Char) (hV : '\n' ∉ V) :
    (splitNl (replace_marked_value c d V).1).length = (splitNl c).length := by
  rw [splitNl_output c d V hV, procRec_length]

/-- Witness for C10 at a concrete input. -/
theorem C10_line_count_witness :
    ('\n' ∉ "1.3.0".toList) ∧
    (splitNl (replace_marked_value
        ("# gitops-replacer: app\nversion: 1.2.3\nx: y".toList)
        ("app".toList) ("1.3.0".toList)).1).length =
      (splitNl ("# gitops-replacer: app\nversion: 1.2.3\nx: y".toList)).length :=
  ⟨by decide, C10_line_count _ _ _ (by decide)⟩

/-- **C1** (corrected: the content must contain exactly one marker line
for the name).  If the lines of the content are `A ++ lm :: lv :: B` where
`lm` is the unique marker line for `dep_name` and `lv` matches the value
pattern with groups `(g1, qo, v, qc, suf)`, then patching rewrites exactly
the line `lv` to `g1 ++ qo ++ V ++ qc ++ suf` (or leaves it unchanged when
the stripped value already equals `V`); every other line, including the
marker line, is unchanged; the reported old value is `rstrip v` and the
changed flag is set exactly when the value differs. -/
theorem C1_unique_marker_patch (c d V lm lv : List Char)
    (A B : List (List Char)) (g1 qo v qc suf : List Char)
    (hsplit : splitNl c = A ++ lm :: lv :: B)
    (hA : ∀ l ∈ A, isMarkerLine d l = false)
    (hm : isMarkerLine d lm = true)
    (hlv : isMarkerLine d lv = false)
    (hB : ∀ l ∈ B, isMarkerLine d l = false)
    (hvm : valueMatch lv = some (g1, qo, v, qc, suf)) :
    replace_marked_value c d V =
      (joinNl (A ++ lm :: (if rstrip v = V then lv
          else g1 ++ qo ++ V ++ qc ++ suf) :: B),
       some (rstrip v),
       if rstrip v = V then false else true) := by
  rw [replace_marked_value_eq, hsplit, procRec_pass d V A (lm :: lv :: B) hA]
  by_cases heq : rstrip v = V
  · simp only [procRec_eq_marker hm,
      @procRec_eq_noop d V lv g1 qo v qc suf B hlv hvm heq,
      procRec_no_marker d V B hB]
    simp [optOr, heq]
  · have hne : rstrip v ≠ V := heq
    simp only [procRec_eq_marker hm,
      @procRec_eq_subst d V lv g1 qo v qc suf B hlv hvm hne,
      procRec_no_marker d V B hB]
    simp [optOr, heq]

/-- Witness for C1 at a concrete input: the quoted `version` value is
rewritten inside its quotes, all other lines stay byte-identical. -/
theorem C1_unique_marker_patch_witness :
    replace_marked_value
        ("x: y\n# gitops-replacer: app\nversion: \"1.2.3\"\nz: w".toList)
        ("app".toList) ("1.3.0".toList) =
      ("x: y\n# gitops-replacer: app\nversion: \"1.3.0\"\nz: w".toList,
       some ("1.2.3".toList), true) := by
  have h := C1_unique_marker_patch
    ("x: y\n# gitops-replacer: app\nversion: \"1.2.3\"\nz: w".toList)
    ("app".toList) ("1.3.0".toList)
    ("# gitops-replacer: app".toList) ("version: \"1.2.3\"".toList)
    [("x: y".toList)] [("z: w".toList)]
    ("version: ".toList) ("\"".toList) ("1.2.3".toList) ("\"".toList) []
    (by decide) (by decide) (by decide) (by decide) (by decide) (by decide)
  rw [h]
  decide

/-- Counterexample for **C1** as stated: with the marker duplicated, the
line after each occurrence is rewritten, so there is no single patched
line with every other line byte-identical: neither of the two candidate
"only one line changed" outputs is produced. -/
theorem C1_counterexample :
    (replace_marked_value
        ("# gitops-replacer: app\nversion: 1.0\n# gitops-replacer: app\ntag: 2.0".toList)
        ("app".toList) ("9.9".toList)).1 ≠
      "# gitops-replacer: app\nversion: 9.9\n# gitops-replacer: app\ntag: 2.0".toList
    ∧
    (replace_marked_value
        ("# gitops-replacer: app\nversion: 1.0\n# gitops-replacer: app\ntag: 2.0".toList)
        ("app".toList) ("9.9".toList)).1 ≠
      "# gitops-replacer: app\nversion: 1.0\n# gitops-replacer: app\ntag: 9.9".toList := by
  decide

/-- **C2** (corrected: every marker occurrence is live, not only the
first).  Whenever line `j` is a marker line for the name — regardless of
any earlier markers — and line `j+1` is not itself a marker line and
matches the value pattern, the output line at `j+1` is the rewritten
line.  Duplicate markers are not inert: `replace_next` is set again at
every occurrence. -/
theorem C2_every_marker_live (c d V : List Char) (j : Nat)
    (lm lv g1 qo v qc suf : List Char) (hV : '\n' ∉ V)
    (h1 : (splitNl c).get? j = some lm) (hm : isMarkerLine d lm = true)
    (h2 : (splitNl c).get? (j + 1) = some lv)
    (hlv : isMarkerLine d lv = false)
    (hvm : valueMatch lv = some (g1, qo, v, qc, suf)) :
    (splitNl (replace_marked_value c d V).1).get? (j + 1) =
      some (if rstrip v = V then lv else g1 ++ qo ++ V ++ qc ++ suf) := by
  rw [splitNl_output c d V hV, procRec_get d V (splitNl c) false j lm lv h1 h2]
  rw [hm]
  by_cases heq : rstrip v = V
  · simp [lineOut, hlv, hvm, heq]
  · simp [lineOut, hlv, hvm, heq]

/-- Witness for C2 (amended): line 3, following the *second* duplicate
marker, is rewritten. -/
theorem C2_every_marker_live_witness :
    ('\n' ∉ "9".toList) ∧
    (splitNl (replace_marked_value
        ("# gitops-replacer: app\na: 1\n# gitops-replacer: app\nb: 2".toList)
        ("app".toList) ("9".toList)).1).get? 3 = some ("b: 9".toList) := by
  refine ⟨by decide, ?_⟩
  have h := C2_every_marker_live
    ("# gitops-replacer: app\na: 1\n# gitops-replacer: app\nb: 2".toList)
    ("app".toList) ("9".toList) 2
    ("# gitops-replacer: app".toList) ("b: 2".toList)
    ("b: ".toList) [] ("2".toList) [] []
    (by decide) (by decide) (by decide) (by decide) (by decide) (by decide)
  rw [h]
  decide

/-- Counterexample for **C2** as stated: the second occurrence of the
marker is not inert — the line following it is modified away from its
input form `b: 2`. -/
theorem C2_counterexample :
    (splitNl ("# gitops-replacer: app\na: 1\n# gitops-replacer: app\nb: 2".toList)).get? 3 =
      some ("b: 2".toList)
    ∧
    (splitNl (replace_marked_value
        ("# gitops-replacer: app\na: 1\n# gitops-replacer: app\nb: 2".toList)
        ("app".toList) ("9".toList)).1).get? 3 ≠ some ("b: 2".toList) := by
  decide

/-- **C5** (corrected: idempotence holds for admissible new values).
When the new value contains no quote, `#` or newline character and
neither starts nor ends with whitespace (`valueOk`), a second application
of the Patcher with the same name and value returns the first output
unchanged and reports `changed = false`. -/
theorem C5_idempotent (c d V : List Char) (hok : valueOk V = true) :
    (replace_marked_value (replace_marked_value c d V).1 d V).1 =
      (replace_marked_value c d V).1 ∧
    (replace_marked_value (replace_marked_value c d V).1 d V).2.2 = false := by
  have hV : '\n' ∉ V := valueOk_no_nl hok
  have hsplit := splitNl_output c d V hV
  obtain ⟨h1, h2⟩ := procRec_idem d V hok (splitNl c) false
    (fun l hl => mem_splitNl_no_nl hl)
  constructor
  · rw [replace_marked_value_eq (replace_marked_value c d V).1 d V, hsplit, h1]
    rw [replace_marked_value_eq c d V]
  · rw [replace_marked_value_eq (replace_marked_value c d V).1 d V, hsplit, h2]

/-- Witness for C5 (amended) at a concrete input. -/
theorem C5_idempotent_witness :
    valueOk ("1.3.0".toList) = true ∧
    ((replace_marked_value (replace_marked_value
        ("# gitops-replacer: app\nversion: 1.2.3".toList)
        ("app".toList) ("1.3.0".toList)).1
        ("app".toList) ("1.3.0".toList)).1 =
      (replace_marked_value ("# gitops-replacer: app\nversion: 1.2.3".toList)
        ("app".toList) ("1.3.0".toList)).1 ∧
    (replace_marked_value (replace_marked_value
        ("# gitops-replacer: app\nversion: 1.2.3".toList)
        ("app".toList) ("1.3.0".toList)).1
        ("app".toList) ("1.3.0".toList)).2.2 = false) :=
  ⟨by decide, C5_idempotent _ _ _ (by decide)⟩

/-- Counterexample for **C5** as stated: for the value `a#b` (containing a
`#`), the second application reports `changed = true` and alters the
content again (`tag: a#b` becomes `tag: a#b#b`). -/
theorem C5_counterexample :
    (replace_marked_value (replace_marked_value
        ("# gitops-replacer: app\ntag: v1".toList)
        ("app".toList) ("a#b".toList)).1
        ("app".toList) ("a#b".toList)).2.2 = true ∧
    (replace_marked_value (replace_marked_value
        ("# gitops-replacer: app\ntag: v1".toList)
        ("app".toList) ("a#b".toList)).1
        ("app".toList) ("a#b".toList)).1 ≠
      (replace_marked_value ("# gitops-replacer: app\ntag: v1".toList)
        ("app".toList) ("a#b".toList)).1 := by
  decide

/-! ### Characterizations of the two loops -/

theorem precheck_fetched (get : Target → GetResp) :
    ∀ (ts : List Target) (s : PrecheckState),
      (ts.foldl (precheckStep get) s).fetched = s.fetched ++ ts.map cacheKey := by
  intro ts
  induction ts with
  | nil => intro s; simp
  | cons t ts ih =>
    intro s
    rw [List.foldl_cons, ih]
    have : (precheckStep get s t).fetched = s.fetched ++ [cacheKey t] := by
      unfold precheckStep
      by_cases h1 : (get t).status = 401
      · simp [h1]
      · by_cases h2 : (get t).status = 404
        · simp [h1, h2]
        · by_cases h3 : (get t).status ≠ 200
          · simp [h1, h2, h3]
          · simp [h1, h2, h3]
    rw [this]
    simp

theorem precheck_exit_preserved (get : Target → GetResp) :
    ∀ (ts : List Target) (s : PrecheckState), s.exitCode ≠ 0 →
      (ts.foldl (precheckStep get) s).exitCode ≠ 0 := by
  intro ts
  induction ts with
  | nil => intro s h; exact h
  | cons t ts ih =>
    intro s h
    rw [List.foldl_cons]
    refine ih _ ?_
    unfold precheckStep
    by_cases h1 : (get t).status = 401
    · simp [h1]
    · by_cases h2 : (get t).status = 404
      · simp [h1, h2]
      · by_cases h3 : (get t).status ≠ 200
        · simp [h1, h2, h3]
        · simpa [h1, h2, h3] using h

theorem precheck_exit_zero (get : Target → GetResp) :
    ∀ (ts : List Target) (s : PrecheckState),
      (ts.foldl (precheckStep get) s).exitCode = 0 ↔
        s.exitCode = 0 ∧ ∀ t ∈ ts, (get t).status = 200 := by
  intro ts
  induction ts with
  | nil => intro s; simp
  | cons t ts ih =>
    intro s
    rw [List.foldl_cons, ih]
    by_cases h3 : (get t).status = 200
    · have hstep : (precheckStep get s t).exitCode = s.exitCode := by
        unfold precheckStep
        simp [h3]
      rw [hstep]
      constructor
      · rintro ⟨h4, h5⟩
        exact ⟨h4, fun x hx => by
          rcases List.mem_cons.mp hx with rfl | hx'
          · exact h3
          · exact h5 x hx'⟩
      · rintro ⟨h4, h5⟩
        exact ⟨h4, fun x hx => h5 x (List.mem_cons.mpr (Or.inr hx))⟩
    · have hstep : (precheckStep get s t).exitCode = 1 := by
        unfold precheckStep
        by_cases h1 : (get t).status = 401
        · simp [h1]
        · by_cases h2 : (get t).status = 404
          · simp [h1, h2]
          · simp [h1, h2, h3]
      rw [hstep]
      constructor
      · rintro ⟨h4, _⟩
        exact absurd h4 (by decide)
      · rintro ⟨_, h5⟩
        exact absurd (h5 t (by simp)) h3

theorem precheck_cache_mono (get : Target → GetResp) :
    ∀ (ts : List Target) (s : PrecheckState) (k : String),
      (s.cache k).isSome →
      ((ts.foldl (precheckStep get) s).cache k).isSome := by
  intro ts
  induction ts with
  | nil => intro s k h; exact h
  | cons t ts ih =>
    intro s k h
    rw [List.foldl_cons]
    refine ih _ k ?_
    unfold precheckStep
    by_cases h1 : (get t).status = 401
    · simpa [h1] using h
    · by_cases h2 : (get t).status = 404
      · simpa [h1, h2] using h
      · by_cases h3 : (get t).status ≠ 200
        · simpa [h1, h2, h3] using h
        · simp only [h1, h2, h3]
          simp only [if_false]
          by_cases hk : k = cacheKey t
          · simp [hk]
          · simpa [hk] using h

theorem precheck_cache_hit (get : Target → GetResp) :
    ∀ (ts : List Target) (s : PrecheckState),
      (∀ t ∈ ts, (get t).status = 200) →
      ∀ t ∈ ts, ((ts.foldl (precheckStep get) s).cache (cacheKey t)).isSome := by
  intro ts
  induction ts with
  | nil => intro s _ t ht; simp at ht
  | cons x ts ih =>
    intro s hall t ht
    rw [List.foldl_cons]
    rcases List.mem_cons.mp ht with rfl | ht'
    · refine precheck_cache_mono get ts _ (cacheKey t) ?_
      have hx : (get t).status = 200 := hall t (by simp)
      unfold precheckStep
      have h1 : ¬ (get t).status = 401 := by rw [hx]; decide
      have h2 : ¬ (get t).status = 404 := by rw [hx]; decide
      simp [h1, h2, hx]
    · exact ih _ (fun y hy => hall y (List.mem_cons.mpr (Or.inr hy))) t ht'

theorem apply_outcomes (env : RunEnv) (cache : String → Option GetResp) :
    ∀ (ts : List Target) (s : ApplyState),
      (ts.foldl (applyStep env cache) s).outcomes =
        s.outcomes ++ ts.map (fun t => (applyTarget env cache t).outcome) := by
  intro ts
  induction ts with
  | nil => intro s; simp
  | cons t ts ih =>
    intro s
    rw [List.foldl_cons, ih]
    simp [applyStep]

theorem apply_writes (env : RunEnv) (cache : String → Option GetResp) :
    ∀ (ts : List Target) (s : ApplyState),
      (ts.foldl (applyStep env cache) s).writes =
        s.writes ++ ts.flatMap (fun t => (applyTarget env cache t).wrote.toList) := by
  intro ts
  induction ts with
  | nil => intro s; simp
  | cons t ts ih =>
    intro s
    rw [List.foldl_cons, ih]
    simp [applyStep]

theorem apply_fetched (env : RunEnv) (cache : String → Option GetResp) :
    ∀ (ts : List Target) (s : ApplyState),
      (ts.foldl (applyStep env cache) s).fetched =
        s.fetched ++ ts.flatMap (fun t => (applyTarget env cache t).refetched.toList) := by
  intro ts
  induction ts with
  | nil => intro s; simp
  | cons t ts ih =>
    intro s
    rw [List.foldl_cons, ih]
    simp [applyStep]

theorem apply_exit_zero (env : RunEnv) (cache : String → Option GetResp) :
    ∀ (ts : List Target) (s : ApplyState),
      (ts.foldl (applyStep env cache) s).exitCode = 0 ↔
        s.exitCode = 0 ∧ ∀ t ∈ ts,
          (applyTarget env cache t).outcome ≠ Outcome.fetchError ∧
          (applyTarget env cache t).outcome ≠ Outcome.writeError := by
  intro ts
  induction ts with
  | nil => intro s; simp
  | cons t ts ih =>
    intro s
    rw [List.foldl_cons, ih]
    by_cases herr : (applyTarget env cache t).outcome = Outcome.fetchError ∨
        (applyTarget env cache t).outcome = Outcome.writeError
    · have hstep : (applyStep env cache s t).exitCode = 1 := by
        simp [applyStep, herr]
      rw [hstep]
      constructor
      · rintro ⟨h4, _⟩
        exact absurd h4 (by decide)
      · rintro ⟨_, h5⟩
        obtain ⟨ha, hb⟩ := h5 t (by simp)
        rcases herr with h | h
        · exact absurd h ha
        · exact absurd h hb
    · have hstep : (applyStep env cache s t).exitCode = s.exitCode := by
        simp [applyStep, herr]
      rw [hstep]
      push_neg at herr
      constructor
      · rintro ⟨h4, h5⟩
        refine ⟨h4, fun x hx => ?_⟩
        rcases List.mem_cons.mp hx with rfl | hx'
        · exact ⟨herr.1, herr.2⟩
        · exact h5 x hx'
      · rintro ⟨h4, h5⟩
        exact ⟨h4, fun x hx => h5 x (List.mem_cons.mpr (Or.inr hx))⟩

theorem mainRun_fail {env : RunEnv} {ts : List Target}
    (h : (ts.foldl (precheckStep env.get) ⟨0, fun _ => none, []⟩).exitCode ≠ 0) :
    mainRun env ts =
      ⟨(ts.foldl (precheckStep env.get) ⟨0, fun _ => none, []⟩).exitCode,
       (ts.foldl (precheckStep env.get) ⟨0, fun _ => none, []⟩).fetched,
       false, [], [], []⟩ := by
  unfold mainRun
  rw [if_pos h]

theorem mainRun_ok {env : RunEnv} {ts : List Target}
    (h : (ts.foldl (precheckStep env.get) ⟨0, fun _ => none, []⟩).exitCode = 0) :
    mainRun env ts =
      ⟨(ts.foldl (applyStep env
          (ts.foldl (precheckStep env.get) ⟨0, fun _ => none, []⟩).cache)
          ⟨0, [], [], []⟩).exitCode,
       (ts.foldl (precheckStep env.get) ⟨0, fun _ => none, []⟩).fetched,
       true,
       (ts.foldl (applyStep env
          (ts.foldl (precheckStep env.get) ⟨0, fun _ => none, []⟩).cache)
          ⟨0, [], [], []⟩).outcomes,
       (ts.foldl (applyStep env
          (ts.foldl (precheckStep env.get) ⟨0, fun _ => none, []⟩).cache)
          ⟨0, [], [], []⟩).fetched,
       (ts.foldl (applyStep env
          (ts.foldl (precheckStep env.get) ⟨0, fun _ => none, []⟩).cache)
          ⟨0, [], [], []⟩).writes⟩ := by
  unfold mainRun
  rw [if_neg (by simpa using h)]

/-- **C3** (confirmed).  If any target fails the precheck, the run still
issues the precheck GET for every target (one fetch per target), then
terminates with a non-zero exit code before entering the apply phase, so
no write call is made for any target. -/
theorem C3_precheck_fail_fast (env : RunEnv) (ts : List Target)
    (h : ∃ t ∈ ts, (env.get t).status ≠ 200) :
    (mainRun env ts).precheckFetched.length = ts.length ∧
    (mainRun env ts).applyEntered = false ∧
    (mainRun env ts).writes = [] ∧
    (mainRun env ts).exitCode ≠ 0 := by
  have hne : (ts.foldl (precheckStep env.get) ⟨0, fun _ => none, []⟩).exitCode ≠ 0 := by
    intro h0
    obtain ⟨t, ht, hst⟩ := h
    exact hst (((precheck_exit_zero env.get ts _).mp h0).2 t ht)
  rw [mainRun_fail hne]
  refine ⟨?_, rfl, rfl, hne⟩
  rw [precheck_fetched]
  simp

/-- Witness for C3: with three targets of which the second 404s, all
three are prechecked, the apply phase is never entered, no write happens,
and the exit code is non-zero. -/
theorem C3_precheck_fail_fast_witness :
    (∃ t ∈ [⟨"o/r", "main", "a.yaml", "app".toList, none, none⟩,
            ⟨"o/r", "main", "missing.yaml", "app".toList, none, none⟩,
            ⟨"o/r", "main", "c.yaml", "app".toList, none, none⟩],
        ((fun t : Target => if t.file = "missing.yaml"
            then (⟨404, [], "s"⟩ : GetResp) else ⟨200, "x: 1".toList, "s"⟩) t).status ≠ 200) ∧
    ((mainRun
        ⟨fun t => if t.file = "missing.yaml" then ⟨404, [], "s"⟩
            else ⟨200, "x: 1".toList, "s"⟩,
         fun _ _ _ => 200, fun _ _ => true, false, none, true, "9".toList⟩
        [⟨"o/r", "main", "a.yaml", "app".toList, none, none⟩,
         ⟨"o/r", "main", "missing.yaml", "app".toList, none, none⟩,
         ⟨"o/r", "main", "c.yaml", "app".toList, none, none⟩]).precheckFetched.length = 3 ∧
      (mainRun
        ⟨fun t => if t.file = "missing.yaml" then ⟨404, [], "s"⟩
            else ⟨200, "x: 1".toList, "s"⟩,
         fun _ _ _ => 200, fun _ _ => true, false, none, true, "9".toList⟩
        [⟨"o/r", "main", "a.yaml", "app".toList, none, none⟩,
         ⟨"o/r", "main", "missing.yaml", "app".toList, none, none⟩,
         ⟨"o/r", "main", "c.yaml", "app".toList, none, none⟩]).applyEntered = false ∧
      (mainRun
        ⟨fun t => if t.file = "missing.yaml" then ⟨404, [], "s"⟩
            else ⟨200, "x: 1".toList, "s"⟩,
         fun _ _ _ => 200, fun _ _ => true, false, none, true, "9".toList⟩
        [⟨"o/r", "main", "a.yaml", "app".toList, none, none⟩,
         ⟨"o/r", "main", "missing.yaml", "app".toList, none, none⟩,
         ⟨"o/r", "main", "c.yaml", "app".toList, none, none⟩]).writes = [] ∧
      (mainRun
        ⟨fun t => if t.file = "missing.yaml" then ⟨404, [], "s"⟩
            else ⟨200, "x: 1".toList, "s"⟩,
         fun _ _ _ => 200, fun _ _ => true, false, none, true, "9".toList⟩
        [⟨"o/r", "main", "a.yaml", "app".toList, none, none⟩,
         ⟨"o/r", "main", "missing.yaml", "app".toList, none, none⟩,
         ⟨"o/r", "main", "c.yaml", "app".toList, none, none⟩]).exitCode ≠ 0) := by
  refine ⟨⟨⟨"o/r", "main", "missing.yaml", "app".toList, none, none⟩,
    by decide, by decide⟩, ?_⟩
  have h := C3_precheck_fail_fast
    ⟨fun t => if t.file = "missing.yaml" then ⟨404, [], "s"⟩
        else ⟨200, "x: 1".toList, "s"⟩,
     fun _ _ _ => 200, fun _ _ => true, false, none, true, "9".toList⟩
    [⟨"o/r", "main", "a.yaml", "app".toList, none, none⟩,
     ⟨"o/r", "main", "missing.yaml", "app".toList, none, none⟩,
     ⟨"o/r", "main", "c.yaml", "app".toList, none, none⟩]
    ⟨⟨"o/r", "main", "missing.yaml", "app".toList, none, none⟩, by simp, by decide⟩
  exact ⟨h.1, h.2.1, h.2.2.1, h.2.2.2⟩

theorem applyWith_refetched (env : RunEnv) (t : Target) (r : GetResp)
    (x : Option String) : (applyWith env t r x).refetched = x := by
  unfold applyWith
  by_cases h1 : (replace_marked_value r.content t.depName env.value).2.1 = none
  · simp [h1]
  · by_cases h2 : (replace_marked_value r.content t.depName env.value).2.2 = false
    · simp [h1, h2]
    · by_cases h3 : env.applyFlag = false
      · simp [h1, h2, h3]
      · by_cases h4 : env.put t (replace_marked_value r.content t.depName env.value).1
            r.sha = 200 ∨
            env.put t (replace_marked_value r.content t.depName env.value).1 r.sha = 201
        · simp [h1, h2, h3, h4]
        · simp [h1, h2, h3, h4]

theorem applyWith_wrote_dry (env : RunEnv) (t : Target) (r : GetResp)
    (x : Option String) (h : env.applyFlag = false) :
    (applyWith env t r x).wrote = none := by
  unfold applyWith
  by_cases h1 : (replace_marked_value r.content t.depName env.value).2.1 = none
  · simp [h1]
  · by_cases h2 : (replace_marked_value r.content t.depName env.value).2.2 = false
    · simp [h1, h2]
    · simp [h1, h2, h]

theorem flatMap_none {α β : Type} (ts : List α) (f : α → Option β)
    (h : ∀ t ∈ ts, f t = none) :
    ts.flatMap (fun t => (f t).toList) = [] := by
  induction ts with
  | nil => rfl
  | cons t ts ih =>
    rw [List.flatMap_cons, h t (by simp),
      ih (fun y hy => h y (List.mem_cons.mpr (Or.inr hy)))]
    rfl

/-- **C4** (corrected).  The precheck loop fetches once per *target* — a
`(repository, branch, file)` key shared by several targets is fetched
several times, not once — and the apply phase never re-fetches: whenever
it runs, every target's key was cached by the precheck, so the cached
content is what gets patched; the re-fetch branch would be taken only for
a key the precheck left uncached. -/
theorem C4_fetch_once_per_target (env : RunEnv) (ts : List Target) :
    (mainRun env ts).precheckFetched = ts.map cacheKey ∧
    (mainRun env ts).applyFetched = [] := by
  by_cases h : (ts.foldl (precheckStep env.get) ⟨0, fun _ => none, []⟩).exitCode = 0
  · rw [mainRun_ok h]
    constructor
    · rw [precheck_fetched]
      simp
    · rw [apply_fetched]
      simp only [List.nil_append]
      refine flatMap_none ts _ (fun t ht => ?_)
      have hall : ∀ x ∈ ts, (env.get x).status = 200 :=
        ((precheck_exit_zero env.get ts _).mp h).2
      unfold applyTarget
      by_cases hg : (env.ci && gateSkip env.rmatch t env.gitRef) = true
      · simp [hg]
      · have hhit := precheck_cache_hit env.get ts ⟨0, fun _ => none, []⟩ hall t ht
        cases hc : (ts.foldl (precheckStep env.get)
            ⟨0, fun _ => none, []⟩).cache (cacheKey t) with
        | none => rw [hc] at hhit; simp at hhit
        | some r =>
          simp only [hg, Bool.false_eq_true, if_false, hc]
          exact applyWith_refetched env t r none
  · rw [mainRun_fail h]
    constructor
    · rw [precheck_fetched]
      simp
    · rfl

/-- Counterexample for **C4** as stated ("fetched at most once per key"):
two targets with the same repository, branch and file but different marker
names make the precheck fetch the same key twice. -/
theorem C4_counterexample :
    ¬ ((mainRun
        ⟨fun _ => ⟨200, "x: 1".toList, "s"⟩, fun _ _ _ => 200,
         fun _ _ => true, false, none, false, "9".toList⟩
        [⟨"o/r", "main", "f.yaml", "app".toList, none, none⟩,
         ⟨"o/r", "main", "f.yaml", "db".toList, none, none⟩]).precheckFetched.count
        "o/r:main:f.yaml" ≤ 1) := by
  decide

/-- **C6** (confirmed).  The exit code is 0 exactly when no precheck
validation error and no apply-phase fetch or write error was recorded;
gate-skips, missing markers and no-ops never cause failure, and whenever
the apply phase runs, every target receives an outcome (a per-target
write error does not stop the remaining targets). -/
theorem C6_exit_code (env : RunEnv) (ts : List Target) :
    ((mainRun env ts).exitCode = 0 ↔
      (∀ t ∈ ts, (env.get t).status = 200) ∧
      ∀ o ∈ (mainRun env ts).outcomes,
        o ≠ Outcome.fetchError ∧ o ≠ Outcome.writeError) ∧
    (mainRun env ts).outcomes.length =
      (if (mainRun env ts).applyEntered then ts.length else 0) := by
  by_cases h : (ts.foldl (precheckStep env.get) ⟨0, fun _ => none, []⟩).exitCode = 0
  · rw [mainRun_ok h]
    have hall : ∀ x ∈ ts, (env.get x).status = 200 :=
      ((precheck_exit_zero env.get ts _).mp h).2
    constructor
    · rw [apply_exit_zero, apply_outcomes]
      simp only [List.nil_append]
      constructor
      · rintro ⟨_, h5⟩
        refine ⟨hall, fun o ho => ?_⟩
        obtain ⟨t, ht, rfl⟩ := List.mem_map.mp ho
        exact h5 t ht
      · rintro ⟨_, h5⟩
        exact ⟨by trivial, fun t ht => h5 _ (List.mem_map.mpr ⟨t, ht, rfl⟩)⟩
    · rw [apply_outcomes]
      simp
  · rw [mainRun_fail h]
    constructor
    · constructor
      · intro h0
        exact absurd h0 h
      · rintro ⟨hall, _⟩
        exact absurd ((precheck_exit_zero env.get ts _).mpr ⟨rfl, hall⟩) h
    · simp

/-- **C7** (confirmed).  When the `--apply` flag is not set, the run
performs no write at all: no `PutFileContent` call is issued for any
target. -/
theorem C7_dry_run_no_writes (g : Target → GetResp)
    (p : Target → List Char → String → Nat) (m : String → String → Bool)
    (ci : Bool) (ref : Option String) (v : List Char) (ts : List Target) :
    (mainRun ⟨g, p, m, ci, ref, false, v⟩ ts).writes = [] := by
  by_cases h : (ts.foldl (precheckStep (RunEnv.mk g p m ci ref false v).get)
      ⟨0, fun _ => none, []⟩).exitCode = 0
  · rw [mainRun_ok h, apply_writes]
    simp only [List.nil_append]
    refine flatMap_none ts _ (fun t ht => ?_)
    unfold applyTarget
    by_cases hg : ((RunEnv.mk g p m ci ref false v).ci &&
        gateSkip (RunEnv.mk g p m ci ref false v).rmatch t
          (RunEnv.mk g p m ci ref false v).gitRef) = true
    · simp [hg]
    · cases hc : (ts.foldl (precheckStep (RunEnv.mk g p m ci ref false v).get)
          ⟨0, fun _ => none, []⟩).cache (cacheKey t) with
      | some r =>
        simp only [hg, Bool.false_eq_true, if_false, hc]
        exact applyWith_wrote_dry _ t r none rfl
      | none =>
        simp only [hg, Bool.false_eq_true, if_false, hc]
        by_cases hs : ((RunEnv.mk g p m ci ref false v).get t).status ≠ 200
        · simp [hs]
        · simp only [hs, if_false]
          exact applyWith_wrote_dry _ t _ _ rfl
  · rw [mainRun_fail h]

/-- **C8** (confirmed).  Characterization of the `--ci` reference gate:
a target is skipped exactly when a `when` (inclusion) pattern is present
and the reference does not match it, or — inclusion having passed or
being absent — an `except` (exclusion) pattern is present and the
reference matches it.  Inclusion is evaluated first, so exclusion can
still skip a target that passed inclusion; an absent reference is matched
as the empty string (`git_ref or ""`). -/
theorem C8_reference_gate (m : String → String → Bool) (t : Target)
    (ref : Option String) :
    (gateSkip m t ref = true ↔
      (∃ p, t.whenPat = some p ∧ m p (ref.getD "") = false) ∨
      ((∀ p, t.whenPat = some p → m p (ref.getD "") = true) ∧
        ∃ q, t.exceptPat = some q ∧ m q (ref.getD "") = true)) ∧
    gateSkip m t none = gateSkip m t (some "") := by
  refine ⟨?_, rfl⟩
  unfold gateSkip
  cases hw : t.whenPat with
  | none =>
    cases he : t.exceptPat with
    | none => simp
    | some q => simp
  | some p =>
    by_cases hm : m p (ref.getD "") = true
    · cases he : t.exceptPat with
      | none => simp [hm]
      | some q => simp [hm]
    · have hm' : m p (ref.getD "") = false := by
        cases hx : m p (ref.getD "") with
        | false => rfl
        | true => exact absurd hx hm
      cases he : t.exceptPat with
      | none => simp [hm']
      | some q => simp [hm']
